import Mathlib

/-!
# Verification of the ng-web-assembly core

Shallow embedding of the repository's memory arena allocator
(`WasmMemoryManager` + the WAT bump allocator), the numeric kernel
library (WAT functions, f64 values idealised as real numbers), the
typed views (`WasmVector` / `WasmMatrix` disposal discipline) and the
worker pool scheduler (`WasmWorkerPool`), together with proofs of the
spec's testable properties.

Machine integers are modelled as `Nat`/`Int` (the quantities involved
stay far below 2^31 for valid inputs); `f64` values are modelled as
real numbers; JS `Map`s keyed by pointer are modelled as association
lists with replace-on-set semantics; task-id strings
`task_${counter}_${date}` are modelled by their strictly increasing
counter value.
-/

namespace NgWasm

/-- Error codes of `WasmErrorCode` in the source (`types.ts`).
Errors are modelled by their code; the human-readable message is
dropped. -/
inductive WasmErrorCode where
  | INIT_FAILED
  | ALLOCATION_FAILED
  | INVALID_POINTER
  | OUT_OF_MEMORY
  | COMPUTATION_FAILED
  | WORKER_ERROR
  | DISPOSED
  deriving Repr, DecidableEq

/-- `MemoryBlock` of the source: a tracked allocation.  The `type`,
`label` and `createdAt` fields play no role in any allocator decision
and are omitted. -/
structure MemBlock where
  ptr : Nat
  size : Nat
  deriving Repr, DecidableEq

/-- `MemoryPoolConfig` of the source. -/
structure MemoryPoolConfig where
  initialPages : Nat
  maxPages : Nat
  enableTracking : Bool
  autoGrow : Bool
  deriving Repr, DecidableEq

/-- `DEFAULT_CONFIG` of `memory-manager.ts`. -/
def DEFAULT_CONFIG : MemoryPoolConfig :=
  { initialPages := 256, maxPages := 16384, enableTracking := true, autoGrow := true }

/-- 64 KiB per WebAssembly page. -/
def BYTES_PER_PAGE : Nat := 65536

/-- First 64 KiB of the linear memory are reserved. -/
def RESERVED_BYTES : Nat := 65536

/-- The numeric counters of `WasmMetrics` (`operationCounts`, touched
only by `trackComputation`, is irrelevant to the claims and omitted;
`totalComputeTimeMs` is kept as a natural number placeholder). -/
structure WasmMetrics where
  totalAllocations : Nat
  totalDeallocations : Nat
  peakMemoryUsage : Nat
  currentMemoryUsage : Nat
  totalComputeTimeMs : Nat
  deriving Repr, DecidableEq

def zeroMetrics : WasmMetrics :=
  { totalAllocations := 0, totalDeallocations := 0, peakMemoryUsage := 0,
    currentMemoryUsage := 0, totalComputeTimeMs := 0 }

/-- Combined state of a `WasmMemoryManager` and its WASM instance.
`heapPtr` is the WAT global `$heap_ptr`; `capacity` is
`memory.buffer.byteLength`. -/
structure MgrState where
  heapPtr : Nat
  capacity : Nat
  allocations : List MemBlock
  freeList : List MemBlock
  metrics : WasmMetrics
  config : MemoryPoolConfig
  deriving Repr, DecidableEq

/-- WAT `allocate`: align the size up to 8 bytes, return the current
heap pointer and bump it by the aligned size. -/
def wasmAllocate (s : MgrState) (size : Nat) : Nat × MgrState :=
  let alignedSize := (size + 7) / 8 * 8
  (s.heapPtr, { s with heapPtr := s.heapPtr + alignedSize })

/-- WAT `get_heap_usage`: `heap_ptr - 65536`. -/
def getHeapUsage (s : MgrState) : Nat := s.heapPtr - RESERVED_BYTES

/-- The operation argument of `updateMetrics`, a closed union of
string literals (`'allocate' | 'deallocate' | 'reset'`) in the
source. -/
inductive MetricsOp where
  | allocOp
  | deallocOp
  | resetOp
  deriving Repr, DecidableEq

/-- `WasmMemoryManager.updateMetrics`: a no-op unless tracking is
enabled; `currentMemoryUsage` is clamped at 0 on deallocation
(`Math.max(0, …)`) and the peak is a monotone high-water mark. -/
def updateMetrics (cfg : MemoryPoolConfig) (op : MetricsOp) (bytes : Nat)
    (m : WasmMetrics) : WasmMetrics :=
  if cfg.enableTracking = false then m
  else
    match op with
    | .allocOp =>
      { m with totalAllocations := m.totalAllocations + 1,
               currentMemoryUsage := m.currentMemoryUsage + bytes,
               peakMemoryUsage := max m.peakMemoryUsage (m.currentMemoryUsage + bytes) }
    | .deallocOp =>
      { m with totalDeallocations := m.totalDeallocations + 1,
               currentMemoryUsage := m.currentMemoryUsage - bytes }
    | .resetOp =>
      { m with currentMemoryUsage := 0 }

/-- Loop of `WasmMemoryManager.findFreeBlock`: scan the free list
keeping the best (index, block) pair; a block improves on the current
best iff its size fits the request and is strictly smaller than the
best size so far (`Infinity` initially, modelled by `none`). -/
def findFreeBlockGo (bytesNeeded : Nat) :
    List MemBlock → Nat → Option (Nat × MemBlock) → Option (Nat × MemBlock)
  | [], _, best => best
  | b :: rest, i, best =>
    let improves : Bool :=
      decide (bytesNeeded ≤ b.size) &&
        (match best with
         | none => true
         | some (_, bb) => decide (b.size < bb.size))
    findFreeBlockGo bytesNeeded rest (i + 1) (if improves then some (i, b) else best)

/-- `WasmMemoryManager.findFreeBlock`: best-fit scan; on a hit the
block is spliced out of the free list and its pointer returned. -/
def findFreeBlock (bytesNeeded : Nat) (freeList : List MemBlock) :
    Option (Nat × List MemBlock) :=
  match findFreeBlockGo bytesNeeded freeList 0 none with
  | some (i, b) => some (b.ptr, freeList.eraseIdx i)
  | none => none

/-- The maximum page count of the WAT module's exported memory,
`(memory (export "memory") 256 512)`: `WebAssembly.Memory.grow` throws
a `RangeError` when the grown page count would exceed it. -/
def WAT_MAX_PAGES : Nat := 512

/-- A failure surfaced by the memory manager: a `WasmError` carrying
its code, or the JS `RangeError` that `wasm.memory.grow` throws when
the module's declared memory maximum would be exceeded (the TS code
does not catch it). -/
inductive MgrError where
  | wasmError (code : WasmErrorCode)
  | rangeError
  deriving Repr, DecidableEq

/-- `WasmMemoryManager.ensureCapacity`: grow the backing memory (whole
64 KiB pages) when the bytes available past the heap cursor do not
cover the request; errors with `OUT_OF_MEMORY` when growth is disabled
or would exceed `maxPages`, and with the uncaught `RangeError` of
`memory.grow` when the WAT-declared 512-page maximum would be
exceeded.  Returns the new capacity. -/
def ensureCapacity (s : MgrState) (bytesNeeded : Nat) :
    Except MgrError Nat :=
  let currentBytes := s.capacity
  let heapUsage := getHeapUsage s
  let availableBytes : Int := (currentBytes : Int) - heapUsage - RESERVED_BYTES
  if availableBytes < bytesNeeded then
    if s.config.autoGrow = false then
      .error (.wasmError .OUT_OF_MEMORY)
    else
      let shortfall : Nat := ((bytesNeeded : Int) - availableBytes).toNat
      let additionalPages : Nat :=
        (shortfall + (BYTES_PER_PAGE - 1)) / BYTES_PER_PAGE
      let currentPages := currentBytes / BYTES_PER_PAGE
      if currentPages + additionalPages > s.config.maxPages then
        .error (.wasmError .OUT_OF_MEMORY)
      else if currentPages + additionalPages > WAT_MAX_PAGES then
        .error .rangeError
      else
        .ok (currentBytes + additionalPages * BYTES_PER_PAGE)
  else
    .ok currentBytes

/-- JS `Map.set` keyed by `ptr` on an association list: replace the
entry with this key in place (keys are unique in a `Map`, and
insertion order is preserved), else append at the end. -/
def mapSet : List MemBlock → MemBlock → List MemBlock
  | [], nb => [nb]
  | x :: rest, nb =>
    if x.ptr = nb.ptr then nb :: rest else x :: mapSet rest nb

/-- JS `Map.get` keyed by `ptr`. -/
def mapGet (blocks : List MemBlock) (ptr : Nat) : Option MemBlock :=
  blocks.find? (fun x => x.ptr = ptr)

/-- JS `Map.delete` keyed by `ptr`. -/
def mapDelete (blocks : List MemBlock) (ptr : Nat) : List MemBlock :=
  blocks.filter (fun x => x.ptr ≠ ptr)

/-- `WasmMemoryManager.allocate` for an element type of
`bpe = BYTES_PER_ELEMENT` bytes and `length` elements: try best-fit
reuse from the free list; on a miss ensure capacity and bump-allocate;
track the new block and update the metrics.  Returns the pointer and
the new state. -/
def allocate (s : MgrState) (length bpe : Nat) :
    Except MgrError (Nat × MgrState) := do
  let bytesNeeded := length * bpe
  match findFreeBlock bytesNeeded s.freeList with
  | some (ptr, freeList') =>
    let block : MemBlock := { ptr := ptr, size := bytesNeeded }
    let s' := { s with
      freeList := freeList',
      allocations := mapSet s.allocations block,
      metrics := updateMetrics s.config .allocOp bytesNeeded s.metrics }
    return (ptr, s')
  | none =>
    let capacity' ← ensureCapacity s bytesNeeded
    let s₁ := { s with capacity := capacity' }
    let (ptr, s₂) := wasmAllocate s₁ bytesNeeded
    if ptr = 0 ∧ bytesNeeded > 0 then
      throw (.wasmError .ALLOCATION_FAILED)
    else
      let block : MemBlock := { ptr := ptr, size := bytesNeeded }
      let s₃ := { s₂ with
        allocations := mapSet s₂.allocations block,
        metrics := updateMetrics s₂.config .allocOp bytesNeeded s₂.metrics }
      return (ptr, s₃)

/-- `WasmMemoryManager.deallocate`: unknown pointers are logged and
ignored (state unchanged); otherwise the block moves from the
allocations map to the free list and the metrics are updated. -/
def deallocate (s : MgrState) (ptr : Nat) : MgrState :=
  match mapGet s.allocations ptr with
  | none => s
  | some block =>
    { s with
      freeList := s.freeList ++ [block],
      allocations := mapDelete s.allocations ptr,
      metrics := updateMetrics s.config .deallocOp block.size s.metrics }

/-- `WasmMemoryManager.reset` (with WAT `reset_heap`). -/
def resetMgr (s : MgrState) : MgrState :=
  { s with
    heapPtr := RESERVED_BYTES,
    allocations := [],
    freeList := [],
    metrics := updateMetrics s.config .resetOp 0 s.metrics }

/-- The state right after `initialize` on a fresh WASM instance
(256 initial pages, heap pointer at the reserved prefix). -/
def initState (cfg : MemoryPoolConfig) : MgrState :=
  { heapPtr := RESERVED_BYTES,
    capacity := cfg.initialPages * BYTES_PER_PAGE,
    allocations := [],
    freeList := [],
    metrics := zeroMetrics,
    config := cfg }

/-!
## Numeric kernels (`computation.wat`)

The WAT kernels operate on f64 values in linear memory; f64 arithmetic
is idealised as real arithmetic, and an `(offset, length)` region is
presented to a kernel as an indexing function `ℕ → ℝ` (element `i`
stands for the f64 at byte offset `ptr + 8·i`).
-/

noncomputable section RealKernels

/-- WAT accumulation loop `sum += v[i]` for `i = 0, …, n-1`. -/
def sumLoop (v : ℕ → ℝ) : ℕ → ℝ
  | 0 => 0
  | n + 1 => sumLoop v n + v n

/-- WAT accumulation loop `sum += v[i] * v[i]` for `i = 0, …, n-1`. -/
def sqLoop (v : ℕ → ℝ) : ℕ → ℝ
  | 0 => 0
  | n + 1 => sqLoop v n + v n * v n

/-- WAT accumulation loop `diff = v[i] - mean; sum_sq += diff * diff`. -/
def sumSqDiffLoop (v : ℕ → ℝ) (mean : ℝ) : ℕ → ℝ
  | 0 => 0
  | n + 1 => sumSqDiffLoop v mean n + (v n - mean) * (v n - mean)

/-- WAT `stats_mean` (and `$stats_mean_internal`, which is the same
code): `0` when `len` is zero, else the accumulated sum divided by
`len`. -/
def stats_mean (v : ℕ → ℝ) (len : ℕ) : ℝ :=
  if len = 0 then 0 else sumLoop v len / len

/-- WAT `stats_variance` (and `$stats_variance_internal`): `0` when
`len ≤ 1`, else the accumulated squared deviations from the mean
divided by `f64.convert_i32_u (len - 1)`. -/
def stats_variance (v : ℕ → ℝ) (len : ℕ) : ℝ :=
  if len ≤ 1 then 0
  else sumSqDiffLoop v (stats_mean v len) len / ((len - 1 : ℕ) : ℝ)

/-- WAT `stats_std_dev`: square root of the variance. -/
def stats_std_dev (v : ℕ → ℝ) (len : ℕ) : ℝ :=
  Real.sqrt (stats_variance v len)

/-- WAT `vec_magnitude` / `$vec_magnitude_internal`:
`sqrt(sum(v[i]^2))`. -/
def vec_magnitude (v : ℕ → ℝ) (len : ℕ) : ℝ :=
  Real.sqrt (sqLoop v len)

/-- WAT `mat_frobenius_norm`: delegates to `$vec_magnitude_internal`
over the flattened buffer. -/
def mat_frobenius_norm (v : ℕ → ℝ) (size : ℕ) : ℝ :=
  vec_magnitude v size

/-- WAT `vec_normalize` (in place): divide every element by the
magnitude unless the magnitude is ≤ the 1e-7 guard. -/
def vec_normalize (v : ℕ → ℝ) (len : ℕ) : ℕ → ℝ :=
  let mag := vec_magnitude v len
  if (1 / 10000000 : ℝ) < mag then
    fun i => if i < len then v i / mag else v i
  else v

/-- WAT `vec_scale` as invoked in place by `WasmVector.scale`
(`result_ptr = v_ptr`): each element below `len` is multiplied by the
scalar. -/
def vec_scale (v : ℕ → ℝ) (len : ℕ) (k : ℝ) : ℕ → ℝ :=
  fun i => if i < len then v i * k else v i

/-- WAT `vec_add` as invoked in place by `WasmVector.add`
(`result_ptr = a_ptr`). -/
def vec_add (v w : ℕ → ℝ) (len : ℕ) : ℕ → ℝ :=
  fun i => if i < len then v i + w i else v i

/-- A single `f64.store` into the output region at cell index `idx`. -/
def writeCell (out : ℕ → ℝ) (idx : ℕ) (x : ℝ) : ℕ → ℝ :=
  fun t => if t = idx then x else out t

/-- Inner loop of WAT `mat_transpose` with row `i` fixed: for
`j = 0, …, cols-1` store `B[j*rows + i] := A[i*cols + j]`. -/
def transposeColLoop (a : ℕ → ℝ) (rows cols i : ℕ) (out : ℕ → ℝ) :
    ℕ → (ℕ → ℝ)
  | 0 => out
  | j + 1 =>
    writeCell (transposeColLoop a rows cols i out j) (j * rows + i) (a (i * cols + j))

/-- Outer loop of WAT `mat_transpose` over rows. -/
def transposeRowLoop (a : ℕ → ℝ) (rows cols : ℕ) (out : ℕ → ℝ) :
    ℕ → (ℕ → ℝ)
  | 0 => out
  | i + 1 => transposeColLoop a rows cols i (transposeRowLoop a rows cols out i) cols

/-- WAT `mat_transpose` of a `rows × cols` input `a` into an output
region `out`; the engine's `matrixTranspose` always allocates a fresh
(disjoint) output region, so input and output are separate here. -/
def mat_transpose (rows cols : ℕ) (a out : ℕ → ℝ) : ℕ → ℝ :=
  transposeRowLoop a rows cols out rows

/-!
## Typed views (`WasmVector` / `WasmMatrix` in `wasm-signal-engine.ts`)
-/

/-- A thrown JS exception: either a `WasmError` carrying a code, or a
plain `Error` carrying only its message. -/
inductive JsError where
  | wasmError (code : WasmErrorCode)
  | plainError (msg : String)
  deriving Repr, DecidableEq

/-- Observable state of a `WasmVector`: its disposed flag and the
backing region's values and length. -/
structure WasmVectorState where
  disposed : Bool
  values : ℕ → ℝ
  length : ℕ

/-- Observable state of a `WasmMatrix` (row-major backing buffer). -/
structure WasmMatrixState where
  disposed : Bool
  values : ℕ → ℝ
  rows : ℕ
  cols : ℕ

/-- `WasmVector.ensureNotDisposed`: throw a `WasmError` with code
`DISPOSED` when the view has been disposed. -/
def ensureNotDisposed (s : WasmVectorState) : Except JsError Unit :=
  if s.disposed then .error (.wasmError .DISPOSED) else .ok ()

/-- `WasmMatrix.ensureNotDisposed`. -/
def mEnsureNotDisposed (s : WasmMatrixState) : Except JsError Unit :=
  if s.disposed then .error (.wasmError .DISPOSED) else .ok ()

/-- `WasmVector.set`: guarded by `ensureNotDisposed`. -/
def wvSet (s : WasmVectorState) (data : ℕ → ℝ) :
    Except JsError WasmVectorState := do
  ensureNotDisposed s
  return { s with values := fun i => if i < s.length then data i else s.values i }

/-- `WasmVector.setAt`: guarded by `ensureNotDisposed`. -/
def wvSetAt (s : WasmVectorState) (index : ℕ) (value : ℝ) :
    Except JsError WasmVectorState := do
  ensureNotDisposed s
  return { s with values := fun i => if i = index then value else s.values i }

/-- `WasmVector.getAt`: reads `this._data()[index]` with no disposal
check. -/
def wvGetAt (s : WasmVectorState) (index : ℕ) : Except JsError ℝ :=
  .ok (s.values index)

/-- `WasmVector.fill`: guarded by `ensureNotDisposed`. -/
def wvFill (s : WasmVectorState) (value : ℝ) :
    Except JsError WasmVectorState := do
  ensureNotDisposed s
  return { s with values := fun i => if i < s.length then value else s.values i }

/-- `WasmVector.normalize`: guarded by `ensureNotDisposed`, then the
WAT kernel in place. -/
def wvNormalize (s : WasmVectorState) : Except JsError WasmVectorState := do
  ensureNotDisposed s
  return { s with values := vec_normalize s.values s.length }

/-- `WasmVector.magnitude`: calls the WAT kernel directly, with no
disposal check. -/
def wvMagnitude (s : WasmVectorState) : Except JsError ℝ :=
  .ok (vec_magnitude s.values s.length)

/-- `WasmVector.scale`: guarded by `ensureNotDisposed`, then
`vec_scale` in place. -/
def wvScale (s : WasmVectorState) (factor : ℝ) :
    Except JsError WasmVectorState := do
  ensureNotDisposed s
  return { s with values := vec_scale s.values s.length factor }

/-- `WasmVector.add`: guarded by `ensureNotDisposed`, then a length
check (plain `Error`), then `vec_add` in place. -/
def wvAdd (s other : WasmVectorState) : Except JsError WasmVectorState := do
  ensureNotDisposed s
  if other.length ≠ s.length then
    throw (.plainError "Vectors must have same length")
  return { s with values := vec_add s.values other.values s.length }

/-- `WasmMatrix.getAt`: reads the signal with no disposal check. -/
def wmGetAt (s : WasmMatrixState) (row col : ℕ) : Except JsError ℝ :=
  .ok (s.values (row * s.cols + col))

/-- `WasmMatrix.setAt`: guarded by `ensureNotDisposed`. -/
def wmSetAt (s : WasmMatrixState) (row col : ℕ) (value : ℝ) :
    Except JsError WasmMatrixState := do
  mEnsureNotDisposed s
  return { s with values := fun i => if i = row * s.cols + col then value else s.values i }

/-- `WasmMatrix.fill`: guarded by `ensureNotDisposed`. -/
def wmFill (s : WasmMatrixState) (value : ℝ) :
    Except JsError WasmMatrixState := do
  mEnsureNotDisposed s
  return { s with values := fun i => if i < s.rows * s.cols then value else s.values i }

/-- `WasmMatrix.set`: guarded by `ensureNotDisposed`; writes the
flattened input (of `n` elements) into the view from index 0. -/
def wmSet (s : WasmMatrixState) (data : ℕ → ℝ) (n : ℕ) :
    Except JsError WasmMatrixState := do
  mEnsureNotDisposed s
  return { s with values := fun i => if i < n then data i else s.values i }

/-- Diagonal loop of `WasmMatrix.setIdentity`: for `k = 0, …, n-1`
store `view[k*cols + k] := 1`. -/
def identDiagLoop (cols : ℕ) (v : ℕ → ℝ) : ℕ → (ℕ → ℝ)
  | 0 => v
  | k + 1 => writeCell (identDiagLoop cols v k) (k * cols + k) 1

/-- `WasmMatrix.setIdentity`: guarded by `ensureNotDisposed`; throws a
plain `Error` for non-square dimensions; fills with 0 (through `fill`,
which re-checks disposal) then writes 1 down the diagonal. -/
def wmSetIdentity (s : WasmMatrixState) : Except JsError WasmMatrixState := do
  mEnsureNotDisposed s
  if s.rows ≠ s.cols then
    throw (.plainError "Identity matrix requires square dimensions")
  let filled ← wmFill s 0
  return { filled with values := identDiagLoop s.cols filled.values s.rows }

/-- `WasmMatrix.norm`: calls the WAT Frobenius-norm kernel with no
disposal check. -/
def wmNorm (s : WasmMatrixState) : Except JsError ℝ :=
  .ok (mat_frobenius_norm s.values (s.rows * s.cols))

end RealKernels

/-- Lifecycle state of one typed view together with the memory manager
backing it: the view's `_disposed` flag, the pointer of its
`WasmBackedArray`, and the manager state. -/
structure ViewState where
  disposed : Bool
  ptr : Nat
  mm : MgrState
  deriving Repr, DecidableEq

/-- `WasmVector.dispose` / `WasmMatrix.dispose`: only when the
`_disposed` flag is still clear does the call reach
`allocated.dispose()` (the closure `() => this.deallocate(ptr)` of
`WasmMemoryManager.allocate`).  The returned Boolean records whether
`deallocate` was invoked. -/
def viewDispose (s : ViewState) : ViewState × Bool :=
  if s.disposed then (s, false)
  else ({ disposed := true, ptr := s.ptr, mm := deallocate s.mm s.ptr }, true)

/-!
## Worker pool (`WasmWorkerPool` in `wasm.worker-pool.ts`)

Task-id strings `task_${++counter}_${date}` are modelled by the
counter value; the promise of a request is identified by its task id,
and a `Delivery` records a settled promise.
-/

/-- A settled request promise: `task.resolve` on a `result` message or
`task.reject (Error msg)` on an `error` message / pool shutdown. -/
inductive Delivery where
  | resolved (id : Nat)
  | rejected (id : Nat) (msg : String)
  deriving Repr, DecidableEq

/-- `PooledWorker`: the pending-task map (keys in insertion order),
completed-task counter and busy flag.  The `Worker` handle itself has
no observable state here. -/
structure PooledWorker where
  pendingTasks : List Nat
  taskCount : Nat
  busy : Bool
  deriving Repr, DecidableEq

/-- Scheduler-relevant state of `WasmWorkerPool`. -/
structure PoolState where
  workers : List PooledWorker
  taskQueue : List Nat
  queuedTasks : Nat
  totalTasksCompleted : Nat
  deriving Repr, DecidableEq

/-- Loop of `getAvailableWorker`: scan all workers keeping the one
with the fewest pending tasks (`Infinity` initially, modelled by
`none`; strictly-smaller comparison keeps the first least-loaded
worker). -/
def gawGo : List PooledWorker → Nat → Option (Nat × PooledWorker) →
    Option (Nat × PooledWorker)
  | [], _, best => best
  | w :: rest, idx, best =>
    let best' :=
      match best with
      | none => some (idx, w)
      | some (bi, bw) =>
        if w.pendingTasks.length < bw.pendingTasks.length then some (idx, w)
        else some (bi, bw)
    gawGo rest (idx + 1) best'

/-- `WasmWorkerPool.getAvailableWorker`: the least-busy worker, but
only when it has fewer than 10 pending tasks. -/
def getAvailableWorker (s : PoolState) : Option Nat :=
  match gawGo s.workers 0 none with
  | some (bi, bw) => if bw.pendingTasks.length < 10 then some bi else none
  | none => none

/-- `sendToWorker`: record the task in the worker's pending map
(task ids are fresh, so `Map.set` appends) and refresh the busy
flag. -/
def sendToWorker (s : PoolState) (widx : Nat) (id : Nat) : PoolState :=
  match s.workers[widx]? with
  | none => s
  | some w =>
    let w' := { w with
      pendingTasks := w.pendingTasks ++ [id],
      busy := decide (0 < (w.pendingTasks ++ [id]).length) }
    { s with workers := s.workers.set widx w' }

/-- `WasmWorkerPool.compute`: dispatch to an available worker, else
push onto the overflow queue (and update the queued-tasks signal).
The Boolean records whether the request was dispatched. -/
def compute (s : PoolState) (id : Nat) : PoolState × Bool :=
  match getAvailableWorker s with
  | some widx => (sendToWorker s widx id, true)
  | none =>
    ({ s with taskQueue := s.taskQueue ++ [id],
              queuedTasks := (s.taskQueue ++ [id]).length }, false)

/-- Submit a list of requests in order (each `compute` call). -/
def submitAll (s : PoolState) : List Nat → PoolState
  | [] => s
  | id :: rest => submitAll (compute s id).1 rest

/-- Loop of `processQueue`, with fuel bounding the iterations (each
iteration shortens the queue, so the initial queue length suffices). -/
def processQueueGo : Nat → PoolState → PoolState
  | 0, s => s
  | fuel + 1, s =>
    match s.taskQueue with
    | [] => s
    | qid :: rest =>
      match getAvailableWorker s with
      | none => s
      | some widx =>
        processQueueGo fuel
          (sendToWorker { s with taskQueue := rest, queuedTasks := rest.length } widx qid)

/-- `WasmWorkerPool.processQueue`: drain the overflow queue while some
worker is available. -/
def processQueue (s : PoolState) : PoolState :=
  processQueueGo s.taskQueue.length s

/-- `WasmWorkerPool.handleWorkerMessage` for a `result`/`error`
message carrying `id` from worker `widx`: unknown ids are logged and
dropped; otherwise the pending entry is removed and settled
(resolved for `result`, rejected with the payload for `error`), stats
are updated, and the overflow queue is processed.  Returns the new
state and the settled promise, if any. -/
def handleWorkerMessage (s : PoolState) (widx : Nat) (id : Nat)
    (isError : Bool) (errPayload : String) : PoolState × Option Delivery :=
  match s.workers[widx]? with
  | none => (s, none)
  | some w =>
    if id ∈ w.pendingTasks then
      let pending' := w.pendingTasks.erase id
      let w' := { w with
        pendingTasks := pending',
        taskCount := w.taskCount + 1,
        busy := decide (0 < pending'.length) }
      let s' := { s with
        workers := s.workers.set widx w',
        totalTasksCompleted := s.totalTasksCompleted + 1 }
      (processQueue s',
       some (if isError then .rejected id errPayload else .resolved id))
    else (s, none)

/-- `WasmWorkerPool.terminate`: reject every pending request of every
worker with `Error('Worker pool terminated')`, tear the workers down,
and clear (without draining) the overflow queue.  Returns the settled
promises. -/
def terminate (s : PoolState) : PoolState × List Delivery :=
  (⟨[], [], 0, s.totalTasksCompleted⟩,
   s.workers.flatMap fun w =>
     w.pendingTasks.map fun id => Delivery.rejected id "Worker pool terminated")

/-- A pool of `w` freshly initialised, idle workers. -/
def mkIdlePool (w : Nat) : PoolState :=
  ⟨List.replicate w ⟨[], 0, false⟩, [], 0, 0⟩

/-- Predicted pending-task count of worker `i` after `n` round-robin
dispatches into `w` idle workers. -/
def fillCount (w n i : ℕ) : ℕ :=
  n / w + (if i < n % w then 1 else 0)

/-- Predicted pending-task ids of worker `i` after `n` dispatches of
ids `0, …, n-1` into `w` idle workers. -/
def fillPending (w n i : ℕ) : List ℕ :=
  (List.range (fillCount w n i)).map fun t => t * w + i

/-- Predicted pool state after submitting ids `0, …, n-1` (with
`n ≤ 10·w`, so nothing queues) to `w` idle workers. -/
def fillState (w n : ℕ) : PoolState :=
  ⟨(List.range w).map fun i =>
     ⟨fillPending w n i, 0, decide (0 < fillCount w n i)⟩,
   [], 0, 0⟩

/-- Predicted pool state after submitting ids `0, …, 10·w` to `w`
idle workers: the first `10·w` fill every worker to the 10-task cap
and the last one sits alone on the overflow queue. -/
def overflowState (w : ℕ) : PoolState :=
  { fillState w (10 * w) with taskQueue := [10 * w], queuedTasks := 1 }

/-- A pool with one worker holding pending request 1 and request 2 on
the overflow queue. -/
def c9Pool : PoolState :=
  ⟨[⟨[1], 0, true⟩], [2], 1, 0⟩

/-- Allocator operations for whole-trace claims. -/
inductive MgrOp where
  | alloc (length bpe : Nat)
  | dealloc (ptr : Nat)
  deriving Repr, DecidableEq

/-- Run a sequence of allocate/deallocate operations from a state; a
failing allocate leaves the state unchanged (the exception propagates
to the caller). -/
def runOps (s : MgrState) : List MgrOp → MgrState
  | [] => s
  | .alloc len bpe :: rest =>
    match allocate s len bpe with
    | .ok (_, s') => runOps s' rest
    | .error _ => runOps s rest
  | .dealloc ptr :: rest => runOps (deallocate s ptr) rest

/-- The byte ranges `[ptr, ptr + size)` of two blocks do not
intersect (the non-overlap property claimed for live allocations). -/
def NoOverlap (a b : MemBlock) : Prop :=
  ∀ x : ℕ, a.ptr ≤ x → x < a.ptr + a.size → ¬ (b.ptr ≤ x ∧ x < b.ptr + b.size)

/-- All blocks the manager tracks: live allocations and free blocks. -/
def blocksOf (s : MgrState) : List MemBlock := s.allocations ++ s.freeList

/-- Reachable-state invariant of the memory manager: the heap cursor
is 8-aligned past the reserved prefix, every tracked block is an
8-aligned range between the reserved prefix and the heap cursor, and
all tracked blocks are pairwise non-overlapping. -/
structure MgrInv (s : MgrState) : Prop where
  heap_align : s.heapPtr % 8 = 0
  heap_lo : RESERVED_BYTES ≤ s.heapPtr
  block_align : ∀ b ∈ blocksOf s, b.ptr % 8 = 0
  block_lo : ∀ b ∈ blocksOf s, RESERVED_BYTES ≤ b.ptr
  block_hi : ∀ b ∈ blocksOf s, b.ptr + b.size ≤ s.heapPtr
  disj : (blocksOf s).Pairwise NoOverlap

/-- A manager initialised with `autoGrow: false` and otherwise default
configuration. -/
def c3NoGrowState : MgrState := initState { DEFAULT_CONFIG with autoGrow := false }

/-- A manager initialised with tracking disabled and one live 8-byte
block at the start of the heap. -/
def c4NoTrackState : MgrState :=
  { initState { DEFAULT_CONFIG with enableTracking := false } with
    heapPtr := 65544,
    allocations := [⟨65536, 8⟩] }

/-- A default-config manager with one live 8-byte block at the start
of the heap. -/
def c4TrackState : MgrState :=
  { initState DEFAULT_CONFIG with heapPtr := 65544, allocations := [⟨65536, 8⟩] }

/-- Invariant of the `findFreeBlock` scan after processing the prefix
`seen`: either no seen block fits, or the running best is a fitting
seen block of minimal size, at the least index attaining that size. -/
def FfbInv (need : ℕ) (seen : List MemBlock) : Option (ℕ × MemBlock) → Prop
  | none => ∀ b ∈ seen, ¬ need ≤ b.size
  | some (i, b) =>
    seen[i]? = some b ∧ need ≤ b.size ∧
    ∀ j bj, seen[j]? = some bj → need ≤ bj.size →
      b.size ≤ bj.size ∧ (bj.size = b.size → i ≤ j)

/-- The manager state right after allocating a 100-byte block on a
freshly initialised default-config manager. -/
def c1AllocState : MgrState :=
  { heapPtr := 65640, capacity := 16777216,
    allocations := [⟨65536, 100⟩], freeList := [],
    metrics := { totalAllocations := 1, totalDeallocations := 0,
                 peakMemoryUsage := 100, currentMemoryUsage := 100,
                 totalComputeTimeMs := 0 },
    config := DEFAULT_CONFIG }

/-- The manager state right after allocating a 5-element Float64Array
(40 bytes) on a freshly initialised default-config manager. -/
def c2AllocState : MgrState :=
  { heapPtr := 65576, capacity := 16777216,
    allocations := [⟨65536, 40⟩], freeList := [],
    metrics := { totalAllocations := 1, totalDeallocations := 0,
                 peakMemoryUsage := 40, currentMemoryUsage := 40,
                 totalComputeTimeMs := 0 },
    config := DEFAULT_CONFIG }

/-!
## Theorems
-/

lemma sumLoop_eq (v : ℕ → ℝ) : ∀ n, sumLoop v n = ∑ i ∈ Finset.range n, v i
  | 0 => by simp [sumLoop]
  | n + 1 => by rw [sumLoop, Finset.sum_range_succ, sumLoop_eq v n]

lemma sqLoop_eq (v : ℕ → ℝ) : ∀ n, sqLoop v n = ∑ i ∈ Finset.range n, v i * v i
  | 0 => by simp [sqLoop]
  | n + 1 => by rw [sqLoop, Finset.sum_range_succ, sqLoop_eq v n]

lemma sumSqDiffLoop_eq (v : ℕ → ℝ) (m : ℝ) :
    ∀ n, sumSqDiffLoop v m n = ∑ i ∈ Finset.range n, (v i - m) * (v i - m)
  | 0 => by simp [sumSqDiffLoop]
  | n + 1 => by rw [sumSqDiffLoop, Finset.sum_range_succ, sumSqDiffLoop_eq v m n]

/-- **C5**: `stats_mean v 0 = 0` (not NaN); `stats_variance` is `0`
for `len ≤ 1`; for `len > 1` it is the Bessel-corrected sample
variance `Σ(vᵢ − mean)² / (len − 1)` with `stats_std_dev` its square
root; and the variance of a constant-valued vector is exactly `0`. -/
theorem C5_statistics_contract (v : ℕ → ℝ) (len : ℕ) :
    stats_mean v 0 = 0 ∧
    (len ≤ 1 → stats_variance v len = 0) ∧
    (1 < len →
      stats_variance v len =
        (∑ i ∈ Finset.range len,
            (v i - (∑ j ∈ Finset.range len, v j) / len) ^ 2) / ((len : ℝ) - 1) ∧
      stats_std_dev v len = Real.sqrt (stats_variance v len)) ∧
    (∀ c : ℝ, (∀ i < len, v i = c) → stats_variance v len = 0) := by
  have hmean : ∀ c : ℝ, (∀ i < len, v i = c) → len ≠ 0 → stats_mean v len = c := by
    intro c hc h0
    have hsum : sumLoop v len = len * c := by
      rw [sumLoop_eq]
      rw [Finset.sum_congr rfl fun i hi => hc i (Finset.mem_range.mp hi)]
      simp [mul_comm]
    rw [stats_mean, if_neg h0, hsum]
    field_simp
  refine ⟨by simp [stats_mean], fun h => by simp [stats_variance, h], fun h => ?_, ?_⟩
  · have h0 : len ≠ 0 := by omega
    have h1 : ¬ len ≤ 1 := by omega
    constructor
    · rw [stats_variance, if_neg h1, sumSqDiffLoop_eq, stats_mean, if_neg h0, sumLoop_eq]
      have hcast : ((len - 1 : ℕ) : ℝ) = (len : ℝ) - 1 := by
        have : 1 ≤ len := by omega
        push_cast [this]
        ring
      rw [hcast]
      congr 1
      exact Finset.sum_congr rfl fun i _ => (sq (v i - _)).symm ▸ (pow_two _).symm
    · rfl
  · intro c hc
    by_cases h1 : len ≤ 1
    · simp [stats_variance, h1]
    · have h0 : len ≠ 0 := by omega
      rw [stats_variance, if_neg h1, hmean c hc h0]
      have : sumSqDiffLoop v c len = 0 := by
        rw [sumSqDiffLoop_eq]
        refine Finset.sum_eq_zero fun i hi => ?_
        rw [hc i (Finset.mem_range.mp hi)]
        ring
      rw [this, zero_div]

/-- Witness for C5 at the constant vector `v = 2, 2, 2` and at
`len = 0`. -/
theorem C5_statistics_contract_witness :
    stats_variance (fun _ => (2 : ℝ)) 3 = 0 ∧ stats_mean (fun _ => (2 : ℝ)) 0 = 0 :=
  ⟨(C5_statistics_contract (fun _ => (2 : ℝ)) 3).2.2.2 2 (fun _ _ => rfl),
   (C5_statistics_contract (fun _ => (2 : ℝ)) 0).1⟩

lemma transposeColLoop_get (a : ℕ → ℝ) (rows cols i : ℕ) (out : ℕ → ℝ)
    (hrows : 0 < rows) :
    ∀ j j₀, j₀ < j →
      transposeColLoop a rows cols i out j (j₀ * rows + i) = a (i * cols + j₀) := by
  intro j
  induction j with
  | zero => omega
  | succ j ih =>
    intro j₀ hj₀
    by_cases hj : j₀ = j
    · subst hj
      simp [transposeColLoop, writeCell]
    · have hne : j₀ * rows + i ≠ j * rows + i := by
        intro hEq
        exact hj (Nat.eq_of_mul_eq_mul_right hrows (by omega))
      simp only [transposeColLoop, writeCell, if_neg hne]
      exact ih j₀ (by omega)

lemma transposeColLoop_untouched (a : ℕ → ℝ) (rows cols i : ℕ) (out : ℕ → ℝ) :
    ∀ j t, (∀ j' < j, t ≠ j' * rows + i) →
      transposeColLoop a rows cols i out j t = out t := by
  intro j
  induction j with
  | zero => intro t _; rfl
  | succ j ih =>
    intro t ht
    simp only [transposeColLoop, writeCell, if_neg (ht j (by omega))]
    exact ih t fun j' hj' => ht j' (by omega)

lemma transposeRowLoop_get (a : ℕ → ℝ) (rows cols : ℕ) (out : ℕ → ℝ) :
    ∀ i, i ≤ rows → ∀ i₀ j₀, i₀ < i → j₀ < cols →
      transposeRowLoop a rows cols out i (j₀ * rows + i₀) = a (i₀ * cols + j₀) := by
  intro i
  induction i with
  | zero => omega
  | succ i ih =>
    intro hle i₀ j₀ hi₀ hj₀
    have hrows : 0 < rows := by omega
    by_cases hc : i₀ = i
    · subst hc
      exact transposeColLoop_get a rows cols i₀ _ hrows cols j₀ hj₀
    · have hne : ∀ j' < cols, j₀ * rows + i₀ ≠ j' * rows + i := by
        intro j' _ hEq
        have hi₀r : i₀ < rows := by omega
        have hir : i < rows := by omega
        have h1 : (j₀ * rows + i₀) % rows = i₀ := by
          rw [Nat.mul_comm, Nat.mul_add_mod]
          exact Nat.mod_eq_of_lt hi₀r
        have h2 : (j' * rows + i) % rows = i := by
          rw [Nat.mul_comm, Nat.mul_add_mod]
          exact Nat.mod_eq_of_lt hir
        rw [hEq, h2] at h1
        exact hc h1.symm
      rw [transposeRowLoop, transposeColLoop_untouched a rows cols i _ cols _ hne]
      exact ih (by omega) i₀ j₀ (by omega) hj₀

/-- Element-wise characterisation of `mat_transpose`: output cell
`(j₀, i₀)` of the `cols × rows` result holds input cell `(i₀, j₀)`. -/
lemma mat_transpose_get (rows cols : ℕ) (a out : ℕ → ℝ) (i₀ j₀ : ℕ)
    (hi : i₀ < rows) (hj : j₀ < cols) :
    mat_transpose rows cols a out (j₀ * rows + i₀) = a (i₀ * cols + j₀) :=
  transposeRowLoop_get a rows cols out rows le_rfl i₀ j₀ hi hj

/-- **C7**: transposing a `rows × cols` matrix and then transposing
the result gives back the original matrix element-wise (output
regions are fresh, as `matrixTranspose` always allocates them). -/
theorem C7_transpose_involution (rows cols : ℕ) (a out₁ out₂ : ℕ → ℝ)
    (t : ℕ) (ht : t < rows * cols) :
    mat_transpose cols rows (mat_transpose rows cols a out₁) out₂ t = a t := by
  have hcols : 0 < cols := by
    rcases Nat.eq_zero_or_pos cols with h | h
    · subst h; simp at ht
    · exact h
  have hi₀ : t / cols < rows := Nat.div_lt_of_lt_mul (by rwa [mul_comm] at ht)
  have hj₀ : t % cols < cols := Nat.mod_lt _ hcols
  have hdecomp : t = t / cols * cols + t % cols := by
    rw [Nat.mul_comm]
    exact (Nat.div_add_mod t cols).symm
  calc mat_transpose cols rows (mat_transpose rows cols a out₁) out₂ t
      = mat_transpose cols rows (mat_transpose rows cols a out₁) out₂
          ((t / cols) * cols + t % cols) := by rw [← hdecomp]
    _ = mat_transpose rows cols a out₁ ((t % cols) * rows + t / cols) :=
        mat_transpose_get cols rows _ out₂ (t % cols) (t / cols) hj₀ hi₀
    _ = a ((t / cols) * cols + t % cols) :=
        mat_transpose_get rows cols a out₁ (t / cols) (t % cols) hi₀ hj₀
    _ = a t := by rw [← hdecomp]

/-- Witness for C7 on a concrete `2 × 3` matrix at flat index 4. -/
theorem C7_transpose_involution_witness :
    mat_transpose 3 2 (mat_transpose 2 3 (fun i => (i : ℝ)) (fun _ => 0)) (fun _ => 0) 4
      = ((4 : ℕ) : ℝ) :=
  C7_transpose_involution 2 3 (fun i => (i : ℝ)) (fun _ => 0) (fun _ => 0) 4 (by decide)

/-- **C6 counterexample**: `WasmVector.magnitude` and
`WasmVector.getAt` perform no disposal check, so on a disposed vector
they return a normal result instead of surfacing a `DISPOSED`
`WasmError`. -/
theorem C6_counterexample :
    wvMagnitude ⟨true, fun _ => 0, 2⟩ = .ok (vec_magnitude (fun _ => 0) 2) ∧
    wvMagnitude ⟨true, fun _ => 0, 2⟩ ≠ .error (.wasmError .DISPOSED) ∧
    wvGetAt ⟨true, fun _ => 0, 2⟩ 0 = .ok 0 ∧
    wvGetAt ⟨true, fun _ => 0, 2⟩ 0 ≠ .error (.wasmError .DISPOSED) :=
  ⟨rfl, by simp [wvMagnitude], rfl, by simp [wvGetAt]⟩

/-- **C6 (amended)**: after `dispose()`, every *mutating* operation on
a `WasmVector` (`set`, `setAt`, `fill`, `normalize`, `scale`, `add`)
or `WasmMatrix` (`set`, `setAt`, `fill`, `setIdentity`) surfaces a
`WasmError` with code `DISPOSED`; the read-only accessors (`getAt`,
`magnitude` on vectors; `getAt`, `norm` on matrices) perform no
disposal check and return a normal result. -/
theorem C6_disposed_access (s : WasmVectorState) (m : WasmMatrixState)
    (hs : s.disposed = true) (hm : m.disposed = true) :
    (∀ d, wvSet s d = .error (.wasmError .DISPOSED)) ∧
    (∀ i x, wvSetAt s i x = .error (.wasmError .DISPOSED)) ∧
    (∀ x, wvFill s x = .error (.wasmError .DISPOSED)) ∧
    wvNormalize s = .error (.wasmError .DISPOSED) ∧
    (∀ k, wvScale s k = .error (.wasmError .DISPOSED)) ∧
    (∀ o, wvAdd s o = .error (.wasmError .DISPOSED)) ∧
    (∀ r c x, wmSetAt m r c x = .error (.wasmError .DISPOSED)) ∧
    (∀ x, wmFill m x = .error (.wasmError .DISPOSED)) ∧
    (∀ d n, wmSet m d n = .error (.wasmError .DISPOSED)) ∧
    wmSetIdentity m = .error (.wasmError .DISPOSED) ∧
    (∀ i, wvGetAt s i = .ok (s.values i)) ∧
    wvMagnitude s = .ok (vec_magnitude s.values s.length) ∧
    (∀ r c, wmGetAt m r c = .ok (m.values (r * m.cols + c))) ∧
    wmNorm m = .ok (mat_frobenius_norm m.values (m.rows * m.cols)) := by
  refine ⟨?_, ?_, ?_, ?_, ?_, ?_, ?_, ?_, ?_, ?_,
    fun _ => rfl, rfl, fun _ _ => rfl, rfl⟩ <;>
    simp [wvSet, wvSetAt, wvFill, wvNormalize, wvScale, wvAdd, wmSetAt, wmFill,
      wmSet, wmSetIdentity,
      ensureNotDisposed, mEnsureNotDisposed, hs, hm, Bind.bind, Except.bind]

/-- Witness for C6 at concrete disposed views. -/
theorem C6_disposed_access_witness :
    wvNormalize ⟨true, fun _ => 0, 2⟩ = .error (.wasmError .DISPOSED) ∧
    (∀ x, wmFill ⟨true, fun _ => 0, 2, 2⟩ x = .error (.wasmError .DISPOSED)) ∧
    wmSetIdentity ⟨true, fun _ => 0, 2, 2⟩ = .error (.wasmError .DISPOSED) :=
  ⟨(C6_disposed_access ⟨true, fun _ => 0, 2⟩ ⟨true, fun _ => 0, 2, 2⟩ rfl rfl).2.2.2.1,
   (C6_disposed_access ⟨true, fun _ => 0, 2⟩ ⟨true, fun _ => 0, 2, 2⟩ rfl rfl).2.2.2.2.2.2.2.1,
   (C6_disposed_access ⟨true, fun _ => 0, 2⟩
     ⟨true, fun _ => 0, 2, 2⟩ rfl rfl).2.2.2.2.2.2.2.2.2.1⟩

/-- **C10**: `dispose()` is idempotent — the first call (and only the
first) reaches `WasmMemoryManager.deallocate`, so a second `dispose`
leaves the state untouched and reports that `deallocate` was not
invoked; across any number of disposes the backing block is appended
to the free list at most once and `totalDeallocations` grows by at
most one. -/
theorem C10_dispose_idempotent (s : ViewState) :
    viewDispose ((viewDispose s).1) = ((viewDispose s).1, false) ∧
    (viewDispose s).1.mm.metrics.totalDeallocations ≤
      s.mm.metrics.totalDeallocations + 1 ∧
    ((viewDispose s).1.mm.freeList.countP fun b => b.ptr = s.ptr) ≤
      (s.mm.freeList.countP fun b => b.ptr = s.ptr) + 1 := by
  by_cases h : s.disposed
  · refine ⟨?_, ?_, ?_⟩ <;> simp [viewDispose, h]
  · have h1 : (viewDispose s).1 =
        { disposed := true, ptr := s.ptr, mm := deallocate s.mm s.ptr } := by
      simp [viewDispose, h]
    refine ⟨by rw [h1]; simp [viewDispose], ?_, ?_⟩ <;> rw [h1]
    · show (deallocate s.mm s.ptr).metrics.totalDeallocations ≤ _
      unfold deallocate
      cases mapGet s.mm.allocations s.ptr with
      | none => simp
      | some b =>
        simp only [updateMetrics]
        by_cases ht : s.mm.config.enableTracking = false <;> simp [ht]
    · show ((deallocate s.mm s.ptr).freeList.countP fun b => b.ptr = s.ptr) ≤ _
      unfold deallocate
      cases mapGet s.mm.allocations s.ptr with
      | none => simp
      | some b =>
        simp only [List.countP_append, List.countP_cons, List.countP_nil]
        by_cases hb : b.ptr = s.ptr <;> simp [hb]

/-- **C3 counterexample**: with `autoGrow` disabled, a request whose
shortfall is one page fails with `OUT_OF_MEMORY` even though the grown
page count (256 + 1) would not exceed the configured `maxPages`
(16384); and with the default `autoGrow: true`, a 32 MiB request from
the fresh 256-page state needs 257 further pages — well under
`maxPages`, yet `memory.grow` throws an uncaught `RangeError` because
the WAT module declares a 512-page memory maximum.  So "fails with
OutOfMemory exactly when the grown page count would exceed maxPages"
does not hold on the code. -/
theorem C3_counterexample :
    ensureCapacity c3NoGrowState 16777216 = .error (.wasmError .OUT_OF_MEMORY) ∧
    c3NoGrowState.capacity / BYTES_PER_PAGE + 1 ≤ c3NoGrowState.config.maxPages ∧
    (16777216 : Int) -
        ((c3NoGrowState.capacity : Int) - getHeapUsage c3NoGrowState - RESERVED_BYTES)
      ≤ ((1 * BYTES_PER_PAGE : ℕ) : Int) ∧
    ensureCapacity (initState DEFAULT_CONFIG) 33554432 = .error .rangeError ∧
    (initState DEFAULT_CONFIG).capacity / BYTES_PER_PAGE + 257
      ≤ (initState DEFAULT_CONFIG).config.maxPages := by
  refine ⟨rfl, by decide, by decide, rfl, by decide⟩

/-- **C3 (amended)**: with `autoGrow` enabled (the default), growth is
attempted exactly when the available bytes (capacity minus heap usage
minus the reserved prefix) are fewer than the requested bytes; growth
adds the least whole number of 64 KiB pages covering the shortfall;
the call fails with `OUT_OF_MEMORY` when the grown page count would
exceed `maxPages`, and otherwise with the uncaught `RangeError` of
`memory.grow` when it would exceed the WAT module's declared 512-page
memory maximum; every successful return leaves at least the requested
bytes available (no silent truncation).  (With `autoGrow` disabled,
any shortfall fails with `OUT_OF_MEMORY` regardless of `maxPages` —
see the counterexample.) -/
theorem C3_growth_policy (s : MgrState) (need : ℕ)
    (hauto : s.config.autoGrow = true) :
    ((need : Int) ≤ (s.capacity : Int) - getHeapUsage s - RESERVED_BYTES →
      ensureCapacity s need = .ok s.capacity) ∧
    ((s.capacity : Int) - getHeapUsage s - RESERVED_BYTES < need →
      ∃ ap : ℕ, 0 < ap ∧
        (need : Int) - ((s.capacity : Int) - getHeapUsage s - RESERVED_BYTES)
          ≤ ((ap * BYTES_PER_PAGE : ℕ) : Int) ∧
        ((ap * BYTES_PER_PAGE : ℕ) : Int)
          < (need : Int) - ((s.capacity : Int) - getHeapUsage s - RESERVED_BYTES)
              + BYTES_PER_PAGE ∧
        (if s.config.maxPages < s.capacity / BYTES_PER_PAGE + ap
         then ensureCapacity s need = .error (.wasmError .OUT_OF_MEMORY)
         else if WAT_MAX_PAGES < s.capacity / BYTES_PER_PAGE + ap
         then ensureCapacity s need = .error .rangeError
         else ensureCapacity s need = .ok (s.capacity + ap * BYTES_PER_PAGE))) ∧
    (∀ c', ensureCapacity s need = .ok c' →
      (need : Int) ≤ (c' : Int) - getHeapUsage s - RESERVED_BYTES) := by
  have hgrow : ¬ (s.config.autoGrow = false) := by simp [hauto]
  refine ⟨fun h => ?_, fun h => ?_, fun c' hc' => ?_⟩
  · rw [ensureCapacity, if_neg (by omega)]
  · refine ⟨(((need : Int) -
        ((s.capacity : Int) - getHeapUsage s - RESERVED_BYTES)).toNat +
          (BYTES_PER_PAGE - 1)) / BYTES_PER_PAGE, ?_, ?_, ?_, ?_⟩
    · simp only [BYTES_PER_PAGE]
      omega
    · simp only [BYTES_PER_PAGE]
      omega
    · simp only [BYTES_PER_PAGE]
      omega
    · split
      · rename_i hmax
        rw [ensureCapacity, if_pos (by omega), if_neg hgrow]
        dsimp only
        rw [if_pos (by omega)]
      · rename_i hmax
        split
        · rename_i hwat
          rw [ensureCapacity, if_pos (by omega), if_neg hgrow]
          dsimp only
          rw [if_neg (by omega), if_pos (by omega)]
        · rename_i hwat
          rw [ensureCapacity, if_pos (by omega), if_neg hgrow]
          dsimp only
          rw [if_neg (by omega), if_neg (by omega)]
  · rw [ensureCapacity] at hc'
    split at hc'
    · dsimp only at hc'
      split at hc'
      · simp at hc'
      · split at hc'
        · simp at hc'
        · rename_i hin hout
          obtain rfl := Except.ok.inj hc'
          simp only [BYTES_PER_PAGE]
          omega
    · obtain rfl := Except.ok.inj hc'
      omega

/-- Witness for C3 on the freshly initialised default manager, where 8
requested bytes are available without growth. -/
theorem C3_growth_policy_witness :
    ensureCapacity (initState DEFAULT_CONFIG) 8 = .ok (initState DEFAULT_CONFIG).capacity :=
  (C3_growth_policy (initState DEFAULT_CONFIG) 8 rfl).1 (by decide)

lemma mapGet_mapDelete_self (l : List MemBlock) (p : ℕ) :
    mapGet (mapDelete l p) p = none := by
  rw [mapGet, List.find?_eq_none]
  intro b hb
  have := (List.mem_filter.mp hb).2
  simpa using this

lemma mapGet_cons_pos (x : MemBlock) (l : List MemBlock) (q : ℕ)
    (h : x.ptr = q) : mapGet (x :: l) q = some x := by
  rw [mapGet, List.find?_cons_of_pos _ (by simp [h])]

lemma mapGet_cons_neg (x : MemBlock) (l : List MemBlock) (q : ℕ)
    (h : ¬ x.ptr = q) : mapGet (x :: l) q = mapGet l q := by
  rw [mapGet, List.find?_cons_of_neg _ (by simp [h])]
  rfl

lemma mapDelete_cons (x : MemBlock) (l : List MemBlock) (p : ℕ) :
    mapDelete (x :: l) p =
      if x.ptr = p then mapDelete l p else x :: mapDelete l p := by
  rw [mapDelete, List.filter_cons]
  by_cases hx : x.ptr = p <;> simp [hx, mapDelete]

lemma mapGet_mapDelete_ne (l : List MemBlock) (p q : ℕ) (h : q ≠ p) :
    mapGet (mapDelete l p) q = mapGet l q := by
  induction l with
  | nil => rfl
  | cons x rest ih =>
    rw [mapDelete_cons]
    by_cases hx : x.ptr = p
    · rw [if_pos hx, mapGet_cons_neg x rest q (by omega)]
      exact ih
    · rw [if_neg hx]
      by_cases hq : x.ptr = q
      · rw [mapGet_cons_pos x _ q hq, mapGet_cons_pos x rest q hq]
      · rw [mapGet_cons_neg x _ q hq, mapGet_cons_neg x rest q hq]
        exact ih

/-- **C4 counterexample**: with `enableTracking: false`, deallocating
a tracked pointer moves the block to the free list but does *not*
increment `totalDeallocations` (`updateMetrics` returns early), so the
claim's "increments totalDeallocations" fails on the code. -/
theorem C4_counterexample :
    mapGet c4NoTrackState.allocations 65536 = some ⟨65536, 8⟩ ∧
    (deallocate c4NoTrackState 65536).freeList = [⟨65536, 8⟩] ∧
    (deallocate c4NoTrackState 65536).metrics.totalDeallocations = 0 := by
  refine ⟨by decide, by decide, by decide⟩

/-- **C4 (amended)**: deallocating an untracked pointer never throws
and leaves the entire manager state unchanged; deallocating a tracked
pointer moves exactly that block from the allocations map to the end
of the free list and, when metrics tracking is enabled (the default),
increments `totalDeallocations` by one (never touching
`totalAllocations`). -/
theorem C4_deallocate_contract (s : MgrState) (p : ℕ) :
    (mapGet s.allocations p = none → deallocate s p = s) ∧
    (∀ b, mapGet s.allocations p = some b →
      (deallocate s p).freeList = s.freeList ++ [b] ∧
      mapGet (deallocate s p).allocations p = none ∧
      (∀ q, q ≠ p → mapGet (deallocate s p).allocations q = mapGet s.allocations q) ∧
      (s.config.enableTracking = true →
        (deallocate s p).metrics.totalDeallocations = s.metrics.totalDeallocations + 1) ∧
      (deallocate s p).metrics.totalAllocations = s.metrics.totalAllocations) := by
  constructor
  · intro h
    rw [deallocate, h]
  · intro b hb
    rw [deallocate, hb]
    refine ⟨rfl, mapGet_mapDelete_self _ _, fun q hq => mapGet_mapDelete_ne _ _ _ hq,
      fun ht => ?_, ?_⟩
    · simp [updateMetrics, ht]
    · by_cases ht' : s.config.enableTracking = false <;> simp [updateMetrics, ht']

/-- Witness for C4: deallocating the single live block of a
default-config manager. -/
theorem C4_deallocate_contract_witness :
    (deallocate c4TrackState 65536).metrics.totalDeallocations =
      c4TrackState.metrics.totalDeallocations + 1 ∧
    (deallocate c4TrackState 65536).freeList = c4TrackState.freeList ++ [⟨65536, 8⟩] := by
  have h := (C4_deallocate_contract c4TrackState 65536).2 ⟨65536, 8⟩ (by decide)
  exact ⟨h.2.2.2.1 rfl, h.1⟩

lemma FfbInv_concat_new (need : ℕ) (seen : List MemBlock) (w : MemBlock)
    (hw : need ≤ w.size)
    (hprev : ∀ (j : ℕ) (bj : MemBlock), seen[j]? = some bj →
      need ≤ bj.size → w.size ≤ bj.size ∧ (bj.size = w.size → False)) :
    FfbInv need (seen ++ [w]) (some (seen.length, w)) := by
  have hconcat : (seen ++ [w])[seen.length]? = some w :=
    List.getElem?_concat_length seen w
  refine ⟨hconcat, hw, fun j bj hj hfitj => ?_⟩
  rcases Nat.lt_trichotomy j seen.length with hlt | heq | hgt
  · rw [List.getElem?_append_left hlt] at hj
    have := hprev j bj hj hfitj
    exact ⟨this.1, fun hEq => absurd hEq this.2⟩
  · subst heq
    rw [hconcat] at hj
    cases hj
    exact ⟨le_rfl, fun _ => le_rfl⟩
  · rw [List.getElem?_eq_none (by simp; omega)] at hj
    exact absurd hj (by simp)

lemma FfbInv_step_none_fit (need : ℕ) (seen : List MemBlock) (w : MemBlock)
    (h : FfbInv need seen none) (hw : need ≤ w.size) :
    FfbInv need (seen ++ [w]) (some (seen.length, w)) := by
  refine FfbInv_concat_new need seen w hw fun j bj hj hfitj => ?_
  exact absurd hfitj (h bj (List.getElem?_mem hj))

lemma FfbInv_step_none_nofit (need : ℕ) (seen : List MemBlock) (w : MemBlock)
    (h : FfbInv need seen none) (hw : ¬ need ≤ w.size) :
    FfbInv need (seen ++ [w]) none := by
  intro b hb
  rcases List.mem_append.mp hb with hbs | hbw
  · exact h b hbs
  · rw [List.mem_singleton.mp hbw]
    exact hw

lemma FfbInv_step_some_improve (need : ℕ) (seen : List MemBlock) (w : MemBlock)
    (bi : ℕ) (bw : MemBlock) (h : FfbInv need seen (some (bi, bw)))
    (hw : need ≤ w.size) (hlt : w.size < bw.size) :
    FfbInv need (seen ++ [w]) (some (seen.length, w)) := by
  obtain ⟨hbidx, hbfit, hbmin⟩ := h
  refine FfbInv_concat_new need seen w hw fun j bj hj hfitj => ?_
  have := hbmin j bj hj hfitj
  exact ⟨by omega, by omega⟩

lemma FfbInv_step_some_keep (need : ℕ) (seen : List MemBlock) (w : MemBlock)
    (bi : ℕ) (bw : MemBlock) (h : FfbInv need seen (some (bi, bw)))
    (hk : ¬ (need ≤ w.size ∧ w.size < bw.size)) :
    FfbInv need (seen ++ [w]) (some (bi, bw)) := by
  obtain ⟨hbidx, hbfit, hbmin⟩ := h
  have hbilt : bi < seen.length := by
    rcases List.getElem?_eq_some.mp hbidx with ⟨hn, -⟩
    exact hn
  have hconcat : (seen ++ [w])[seen.length]? = some w :=
    List.getElem?_concat_length seen w
  refine ⟨by rw [List.getElem?_append_left hbilt]; exact hbidx, hbfit,
    fun j bj hj hfitj => ?_⟩
  rcases Nat.lt_trichotomy j seen.length with hlt | heq | hgt
  · rw [List.getElem?_append_left hlt] at hj
    exact hbmin j bj hj hfitj
  · subst heq
    rw [hconcat] at hj
    cases hj
    have hnlt : ¬ w.size < bw.size := fun hlt => hk ⟨hfitj, hlt⟩
    exact ⟨by omega, fun _ => by omega⟩
  · rw [List.getElem?_eq_none (by simp; omega)] at hj
    exact absurd hj (by simp)

lemma findFreeBlockGo_spec (need : ℕ) :
    ∀ (rest seen : List MemBlock) (best : Option (ℕ × MemBlock)),
      FfbInv need seen best →
      FfbInv need (seen ++ rest) (findFreeBlockGo need rest seen.length best) := by
  intro rest
  induction rest with
  | nil =>
    intro seen best h
    simpa [findFreeBlockGo] using h
  | cons w rest ih =>
    intro seen best h
    have hassoc : seen ++ w :: rest = (seen ++ [w]) ++ rest := by simp
    cases best with
    | none =>
      by_cases hw : need ≤ w.size
      · have heq : findFreeBlockGo need (w :: rest) seen.length none =
            findFreeBlockGo need rest (seen.length + 1) (some (seen.length, w)) := by
          simp [findFreeBlockGo, hw]
        rw [heq, hassoc]
        have := ih (seen ++ [w]) (some (seen.length, w))
          (FfbInv_step_none_fit need seen w h hw)
        simpa using this
      · have heq : findFreeBlockGo need (w :: rest) seen.length none =
            findFreeBlockGo need rest (seen.length + 1) none := by
          simp [findFreeBlockGo, hw]
        rw [heq, hassoc]
        have := ih (seen ++ [w]) none (FfbInv_step_none_nofit need seen w h hw)
        simpa using this
    | some ib =>
      obtain ⟨bi, bw⟩ := ib
      by_cases himp : need ≤ w.size ∧ w.size < bw.size
      · have heq : findFreeBlockGo need (w :: rest) seen.length (some (bi, bw)) =
            findFreeBlockGo need rest (seen.length + 1) (some (seen.length, w)) := by
          simp [findFreeBlockGo, himp.1, himp.2]
        rw [heq, hassoc]
        have := ih (seen ++ [w]) (some (seen.length, w))
          (FfbInv_step_some_improve need seen w bi bw h himp.1 himp.2)
        simpa using this
      · have heq : findFreeBlockGo need (w :: rest) seen.length (some (bi, bw)) =
            findFreeBlockGo need rest (seen.length + 1) (some (bi, bw)) := by
          have hii : (decide (need ≤ w.size) && decide (w.size < bw.size)) = false := by
            rcases Decidable.not_and_iff_or_not.mp himp with hn | hn <;> simp [hn]
          simp [findFreeBlockGo, hii]
        rw [heq, hassoc]
        have := ih (seen ++ [w]) (some (bi, bw))
          (FfbInv_step_some_keep need seen w bi bw h himp)
        simpa using this

/-- What a successful `findFreeBlock` returns: the pointer of a
fitting free block of minimal size (first such index on ties), spliced
out of the free list. -/
lemma findFreeBlock_some_spec (need : ℕ) (fl : List MemBlock) (ptr : ℕ)
    (fl' : List MemBlock) (h : findFreeBlock need fl = some (ptr, fl')) :
    ∃ i b, fl[i]? = some b ∧ ptr = b.ptr ∧ fl' = fl.eraseIdx i ∧ need ≤ b.size ∧
      (∀ j bj, fl[j]? = some bj → need ≤ bj.size →
        b.size ≤ bj.size ∧ (bj.size = b.size → i ≤ j)) := by
  have hspec := findFreeBlockGo_spec need fl [] none (by intro b hb; simp at hb)
  rw [findFreeBlock] at h
  cases hgo : findFreeBlockGo need fl 0 none with
  | none =>
    rw [hgo] at h
    exact absurd h (by simp)
  | some ib =>
    obtain ⟨i, b⟩ := ib
    rw [hgo] at h
    simp only [List.nil_append, List.length_nil, hgo] at hspec
    obtain ⟨hidx, hfit, hmin⟩ := hspec
    obtain ⟨hptr, hfl⟩ := Prod.mk.injEq .. ▸ Option.some.inj h
    exact ⟨i, b, hidx, hptr.symm, hfl.symm, hfit, hmin⟩

/-- A `findFreeBlock` miss when no free block is large enough. -/
lemma findFreeBlock_none (need : ℕ) (fl : List MemBlock)
    (h : ∀ b ∈ fl, b.size < need) : findFreeBlock need fl = none := by
  rw [findFreeBlock]
  cases hgo : findFreeBlockGo need fl 0 none with
  | none => rfl
  | some ib =>
    obtain ⟨i, b⟩ := ib
    have hspec := findFreeBlockGo_spec need fl [] none (by intro b hb; simp at hb)
    simp only [List.nil_append, List.length_nil, hgo] at hspec
    obtain ⟨hidx, hfit, -⟩ := hspec
    have hb := h b (List.getElem?_mem hidx)
    omega

lemma mapGet_mapSet_self (l : List MemBlock) (nb : MemBlock) :
    mapGet (mapSet l nb) nb.ptr = some nb := by
  induction l with
  | nil => exact mapGet_cons_pos nb [] nb.ptr rfl
  | cons x rest ih =>
    rw [mapSet]
    by_cases hx : x.ptr = nb.ptr
    · rw [if_pos hx, mapGet_cons_pos nb rest nb.ptr rfl]
    · rw [if_neg hx, mapGet_cons_neg x _ nb.ptr hx]
      exact ih

/-- **C1**: `allocate` scans the whole free list and reuses the
fitting block of smallest size (ties to the first such block found),
splicing it out of the free list; when any free block fits, the
allocation is served by reuse with no heap bump and no buffer growth;
and in particular allocating 100 bytes at offset `X`, deallocating it,
then allocating 50 bytes returns `X` again without growing the buffer
or bumping the heap. -/
theorem C1_best_fit_reuse :
    (∀ (need : ℕ) (fl : List MemBlock) (ptr : ℕ) (fl' : List MemBlock),
      findFreeBlock need fl = some (ptr, fl') →
      ∃ i b, fl[i]? = some b ∧ ptr = b.ptr ∧ fl' = fl.eraseIdx i ∧ need ≤ b.size ∧
        (∀ (j : ℕ) (bj : MemBlock), fl[j]? = some bj → need ≤ bj.size →
          b.size ≤ bj.size ∧ (bj.size = b.size → i ≤ j))) ∧
    (∀ (need : ℕ) (fl : List MemBlock), (∀ b ∈ fl, b.size < need) →
      findFreeBlock need fl = none) ∧
    (∀ (s : MgrState) (len bpe ptr : ℕ) (fl' : List MemBlock),
      findFreeBlock (len * bpe) s.freeList = some (ptr, fl') →
      ∃ s', allocate s len bpe = .ok (ptr, s') ∧ s'.freeList = fl' ∧
        s'.capacity = s.capacity ∧ s'.heapPtr = s.heapPtr) ∧
    (∀ (s : MgrState) (X : ℕ) (s₁ : MgrState), s.freeList = [] →
      allocate s 100 1 = .ok (X, s₁) →
      ∃ s₂, allocate (deallocate s₁ X) 50 1 = .ok (X, s₂) ∧
        s₂.capacity = s₁.capacity ∧ s₂.heapPtr = s₁.heapPtr) := by
  refine ⟨findFreeBlock_some_spec, findFreeBlock_none, ?_, ?_⟩
  · intro s len bpe ptr fl' hff
    rw [allocate]
    simp only [hff]
    exact ⟨_, rfl, rfl, rfl, rfl⟩
  · intro s X s₁ hfl hall
    rw [allocate, hfl] at hall
    norm_num at hall
    rw [show findFreeBlock 100 [] = none from rfl] at hall
    cases hcap : ensureCapacity s 100 with
    | error e =>
      rw [hcap] at hall
      simp [Bind.bind, Except.bind] at hall
    | ok cap' =>
      rw [hcap] at hall
      simp only [Bind.bind, Except.bind, wasmAllocate] at hall
      by_cases hz : s.heapPtr = 0
      · rw [if_pos hz] at hall
        simp [throw, throwThe, MonadExceptOf.throw] at hall
      · rw [if_neg hz] at hall
        simp only [pure, Except.pure] at hall
        obtain ⟨hX, hs⟩ := Prod.mk.inj (Except.ok.inj hall)
        subst hX
        subst hs
        have hget := mapGet_mapSet_self s.allocations ⟨s.heapPtr, 100⟩
        simp only at hget
        simp only [deallocate, hget]
        rw [allocate]
        norm_num
        rw [show ∀ p : ℕ, findFreeBlock 50 [⟨p, 100⟩] = some (p, []) from fun p => rfl]
        exact ⟨_, rfl, rfl, rfl⟩

/-- Witness for C1: the 100-byte/free/50-byte scenario on a fresh
default manager returns the same offset 65536. -/
theorem C1_best_fit_reuse_witness :
    ∃ s₂, allocate (deallocate c1AllocState 65536) 50 1 = .ok (65536, s₂) ∧
      s₂.capacity = c1AllocState.capacity ∧ s₂.heapPtr = c1AllocState.heapPtr :=
  C1_best_fit_reuse.2.2.2 (initState DEFAULT_CONFIG) 65536 c1AllocState rfl rfl

lemma noOverlap_symm {a b : MemBlock} (h : NoOverlap a b) : NoOverlap b a :=
  fun x hb1 hb2 hc => h x hc.1 hc.2 ⟨hb1, hb2⟩

lemma noOverlap_shrink (p n : ℕ) {a b : MemBlock} (hp : p = a.ptr)
    (hn : n ≤ a.size) (h : NoOverlap a b) : NoOverlap ⟨p, n⟩ b := by
  intro x h1 h2
  simp only at h1 h2
  exact h x (by omega) (by omega)

lemma noOverlap_of_le {a b : MemBlock} (c : ℕ) (ha : c ≤ a.ptr)
    (hb : b.ptr + b.size ≤ c) : NoOverlap a b :=
  fun x h1 _ hc => by omega

lemma mapSet_mem (l : List MemBlock) (nb : MemBlock) :
    ∀ y ∈ mapSet l nb, y ∈ l ∨ y = nb := by
  induction l with
  | nil =>
    intro y hy
    simp only [mapSet] at hy
    exact Or.inr (List.mem_singleton.mp hy)
  | cons x rest ih =>
    intro y hy
    simp only [mapSet] at hy
    by_cases hx : x.ptr = nb.ptr
    · rw [if_pos hx] at hy
      rcases List.mem_cons.mp hy with h | h
      · exact Or.inr h
      · exact Or.inl (List.mem_cons_of_mem _ h)
    · rw [if_neg hx] at hy
      rcases List.mem_cons.mp hy with h | h
      · exact Or.inl (h ▸ List.mem_cons_self _ _)
      · rcases ih y h with h' | h'
        · exact Or.inl (List.mem_cons_of_mem _ h')
        · exact Or.inr h'

lemma pairwise_mapSet (l fl : List MemBlock) (nb : MemBlock)
    (hp : (l ++ fl).Pairwise NoOverlap)
    (hnb : ∀ b ∈ l ++ fl, NoOverlap nb b) :
    (mapSet l nb ++ fl).Pairwise NoOverlap := by
  induction l with
  | nil =>
    simp only [mapSet, List.nil_append] at *
    exact List.pairwise_cons.mpr ⟨hnb, hp⟩
  | cons x rest ih =>
    simp only [mapSet]
    rw [List.cons_append, List.pairwise_cons] at hp
    obtain ⟨hx, hrest⟩ := hp
    by_cases hptr : x.ptr = nb.ptr
    · rw [if_pos hptr, List.cons_append]
      refine List.pairwise_cons.mpr ⟨?_, hrest⟩
      intro y hy
      exact hnb y (List.mem_cons_of_mem _ hy)
    · rw [if_neg hptr, List.cons_append]
      refine List.pairwise_cons.mpr ⟨?_, ?_⟩
      · intro y hy
        rcases List.mem_append.mp hy with hy' | hy'
        · rcases mapSet_mem rest nb y hy' with h' | h'
          · exact hx y (List.mem_append_left _ h')
          · subst h'
            exact noOverlap_symm (hnb x (List.mem_cons_self _ _))
        · exact hx y (List.mem_append_right _ hy')
      · exact ih hrest fun b hb => hnb b (List.mem_cons_of_mem _ hb)

lemma list_decomp_at {l : List MemBlock} {i : ℕ} {b : MemBlock}
    (h : l[i]? = some b) :
    l = l.take i ++ b :: l.drop (i + 1) ∧
    l.eraseIdx i = l.take i ++ l.drop (i + 1) := by
  rcases List.getElem?_eq_some.mp h with ⟨hi, hb⟩
  have hsplit : l.take i ++ l[i] :: l.drop (i + 1) = l := by
    calc l.take i ++ l[i] :: l.drop (i + 1)
        = (l.take i ++ [l[i]]) ++ l.drop (i + 1) := by simp
      _ = l.take (i + 1) ++ l.drop (i + 1) := by rw [List.take_concat_get' l i hi]
      _ = l := List.take_append_drop (i + 1) l
  rw [hb] at hsplit
  exact ⟨hsplit.symm, List.eraseIdx_eq_take_drop_succ l i⟩

lemma pairwise_extract (l₁ l₂ l₃ : List MemBlock) (b : MemBlock)
    (hp : (l₁ ++ (l₂ ++ b :: l₃)).Pairwise NoOverlap) :
    (l₁ ++ (l₂ ++ l₃)).Pairwise NoOverlap ∧
    ∀ y ∈ l₁ ++ (l₂ ++ l₃), NoOverlap b y := by
  rw [List.pairwise_append] at hp
  obtain ⟨hp₁, hp₂, hcross⟩ := hp
  rw [List.pairwise_append] at hp₂
  obtain ⟨hp₂₁, hp₂₂, hcross₂⟩ := hp₂
  rw [List.pairwise_cons] at hp₂₂
  obtain ⟨hb₃, hp₃⟩ := hp₂₂
  constructor
  · rw [List.pairwise_append]
    refine ⟨hp₁, ?_, ?_⟩
    · rw [List.pairwise_append]
      exact ⟨hp₂₁, hp₃, fun a ha c hc => hcross₂ a ha c (List.mem_cons_of_mem _ hc)⟩
    · intro a ha c hc
      rcases List.mem_append.mp hc with h | h
      · exact hcross a ha c (List.mem_append_left _ h)
      · exact hcross a ha c (List.mem_append_right _ (List.mem_cons_of_mem _ h))
  · intro y hy
    rcases List.mem_append.mp hy with h | h
    · exact noOverlap_symm
        (hcross y h b (List.mem_append_right _ (List.mem_cons_self _ _)))
    · rcases List.mem_append.mp h with h' | h'
      · exact noOverlap_symm (hcross₂ y h' b (List.mem_cons_self _ _))
      · exact hb₃ y h'

lemma MgrInv_initState (cfg : MemoryPoolConfig) : MgrInv (initState cfg) := by
  refine ⟨show RESERVED_BYTES % 8 = 0 by decide, le_rfl, ?_, ?_, ?_, ?_⟩ <;>
    simp [initState, blocksOf]

lemma list_decomp_at' {l : List MemBlock} {i : ℕ} {b : MemBlock}
    (h : l[i]? = some b) :
    ∃ l₂ l₃, l = l₂ ++ b :: l₃ ∧ l.eraseIdx i = l₂ ++ l₃ :=
  ⟨l.take i, l.drop (i + 1), (list_decomp_at h).1, (list_decomp_at h).2⟩

lemma MgrInv_allocate {s : MgrState} {len bpe X : ℕ} {s' : MgrState}
    (hinv : MgrInv s) (h : allocate s len bpe = .ok (X, s')) :
    MgrInv s' ∧ X % 8 = 0 ∧ RESERVED_BYTES ≤ X := by
  rw [allocate] at h
  cases hff : findFreeBlock (len * bpe) s.freeList with
  | some pr =>
    obtain ⟨ptr, fl'⟩ := pr
    simp only [hff] at h
    obtain ⟨hX, hs⟩ := Prod.mk.inj (Except.ok.inj h)
    obtain ⟨i, b, hidx, hptr, hfl', hfit, -⟩ :=
      findFreeBlock_some_spec (len * bpe) s.freeList ptr fl' hff
    subst hX
    subst hs
    subst hptr
    obtain ⟨l₂, l₃, hdecomp, herase⟩ := list_decomp_at' hidx
    rw [herase] at hfl'
    subst hfl'
    have hbmem : b ∈ blocksOf s :=
      List.mem_append_right _ (List.getElem?_mem hidx)
    have hp0 : (s.allocations ++ (l₂ ++ b :: l₃)).Pairwise NoOverlap := by
      have := hinv.disj
      rw [blocksOf, hdecomp] at this
      exact this
    obtain ⟨hpre, hbno⟩ := pairwise_extract s.allocations l₂ l₃ b hp0
    have hnbno : ∀ y ∈ s.allocations ++ (l₂ ++ l₃),
        NoOverlap ⟨b.ptr, len * bpe⟩ y :=
      fun y hy => noOverlap_shrink _ _ rfl hfit (hbno y hy)
    have hsubmem : ∀ z ∈ l₂ ++ l₃, z ∈ s.freeList := by
      intro z hz
      rw [hdecomp]
      rcases List.mem_append.mp hz with h' | h'
      · exact List.mem_append_left _ h'
      · exact List.mem_append_right _ (List.mem_cons_of_mem _ h')
    have hmem : ∀ z ∈ mapSet s.allocations ⟨b.ptr, len * bpe⟩ ++ (l₂ ++ l₃),
        z ∈ blocksOf s ∨ z = ⟨b.ptr, len * bpe⟩ := by
      intro z hz
      rcases List.mem_append.mp hz with h' | h'
      · rcases mapSet_mem _ _ z h' with h'' | h''
        · exact Or.inl (List.mem_append_left _ h'')
        · exact Or.inr h''
      · exact Or.inl (List.mem_append_right _ (hsubmem z h'))
    refine ⟨⟨hinv.heap_align, hinv.heap_lo, ?_, ?_, ?_, ?_⟩,
      hinv.block_align b hbmem, hinv.block_lo b hbmem⟩
    · intro z hz
      rcases hmem z hz with h' | h'
      · exact hinv.block_align z h'
      · subst h'
        exact hinv.block_align b hbmem
    · intro z hz
      rcases hmem z hz with h' | h'
      · exact hinv.block_lo z h'
      · subst h'
        exact hinv.block_lo b hbmem
    · intro z hz
      rcases hmem z hz with h' | h'
      · exact hinv.block_hi z h'
      · subst h'
        have := hinv.block_hi b hbmem
        simp only
        omega
    · exact pairwise_mapSet _ _ _ hpre hnbno
  | none =>
    simp only [hff] at h
    cases hcap : ensureCapacity s (len * bpe) with
    | error e =>
      rw [hcap] at h
      simp [Bind.bind, Except.bind] at h
    | ok cap' =>
      rw [hcap] at h
      simp only [Bind.bind, Except.bind, wasmAllocate] at h
      by_cases hz : s.heapPtr = 0 ∧ len * bpe > 0
      · rw [if_pos hz] at h
        simp [throw, throwThe, MonadExceptOf.throw] at h
      · rw [if_neg hz] at h
        simp only [pure, Except.pure] at h
        obtain ⟨hX, hs⟩ := Prod.mk.inj (Except.ok.inj h)
        subst hX
        subst hs
        have halign : (len * bpe + 7) / 8 * 8 % 8 = 0 := by omega
        have hge : len * bpe ≤ (len * bpe + 7) / 8 * 8 := by omega
        have hmem : ∀ z ∈ mapSet s.allocations ⟨s.heapPtr, len * bpe⟩ ++ s.freeList,
            z ∈ blocksOf s ∨ z = ⟨s.heapPtr, len * bpe⟩ := by
          intro z hz
          rcases List.mem_append.mp hz with h' | h'
          · rcases mapSet_mem _ _ z h' with h'' | h''
            · exact Or.inl (List.mem_append_left _ h'')
            · exact Or.inr h''
          · exact Or.inl (List.mem_append_right _ h')
        refine ⟨⟨?_, ?_, ?_, ?_, ?_, ?_⟩, hinv.heap_align, hinv.heap_lo⟩
        · have := hinv.heap_align
          simp only
          omega
        · have := hinv.heap_lo
          simp only
          omega
        · intro z hz
          rcases hmem z hz with h' | h'
          · exact hinv.block_align z h'
          · subst h'
            exact hinv.heap_align
        · intro z hz
          rcases hmem z hz with h' | h'
          · exact hinv.block_lo z h'
          · subst h'
            exact hinv.heap_lo
        · intro z hz
          rcases hmem z hz with h' | h'
          · have := hinv.block_hi z h'
            simp only
            omega
          · subst h'
            simp only
            omega
        · exact pairwise_mapSet _ _ _ hinv.disj fun y hy =>
            noOverlap_of_le s.heapPtr le_rfl (hinv.block_hi y hy)

lemma mapGet_decomp {l : List MemBlock} {p : ℕ} {b : MemBlock}
    (h : mapGet l p = some b) :
    ∃ l₁ l₂, l = l₁ ++ b :: l₂ ∧ (∀ x ∈ l₁, ¬ x.ptr = p) ∧ b.ptr = p := by
  induction l with
  | nil => simp [mapGet] at h
  | cons x rest ih =>
    by_cases hx : x.ptr = p
    · rw [mapGet_cons_pos x rest p hx] at h
      cases h
      exact ⟨[], rest, rfl, by simp, hx⟩
    · rw [mapGet_cons_neg x rest p hx] at h
      obtain ⟨l₁, l₂, hl, hl₁, hb⟩ := ih h
      refine ⟨x :: l₁, l₂, by rw [hl, List.cons_append], ?_, hb⟩
      intro y hy
      rcases List.mem_cons.mp hy with h' | h'
      · rw [h']
        exact hx
      · exact hl₁ y h'

lemma mapDelete_decomp (l₁ l₂ : List MemBlock) (p : ℕ) (b : MemBlock)
    (hl₁ : ∀ x ∈ l₁, ¬ x.ptr = p) (hb : b.ptr = p) :
    mapDelete (l₁ ++ b :: l₂) p = l₁ ++ mapDelete l₂ p := by
  have h1 : List.filter (fun x => x.ptr ≠ p) l₁ = l₁ :=
    List.filter_eq_self.mpr fun x hx => by simpa using hl₁ x hx
  rw [mapDelete, List.filter_append, List.filter_cons, if_neg (by simp [hb]), h1]
  rfl

lemma MgrInv_deallocate {s : MgrState} (p : ℕ) (hinv : MgrInv s) :
    MgrInv (deallocate s p) := by
  cases hget : mapGet s.allocations p with
  | none =>
    have hd : deallocate s p = s := by rw [deallocate, hget]
    rw [hd]
    exact hinv
  | some b =>
    have hd : deallocate s p =
        { s with freeList := s.freeList ++ [b],
                 allocations := mapDelete s.allocations p,
                 metrics := updateMetrics s.config .deallocOp b.size s.metrics } := by
      rw [deallocate, hget]
    rw [hd]
    obtain ⟨l₁, l₂, hdecomp, hl₁, hbp⟩ := mapGet_decomp hget
    have hdel : mapDelete s.allocations p = l₁ ++ mapDelete l₂ p := by
      rw [hdecomp]
      exact mapDelete_decomp l₁ l₂ p b hl₁ hbp
    have hbmem : b ∈ blocksOf s :=
      List.mem_append_left _
        (by rw [hdecomp]; exact List.mem_append_right _ (List.mem_cons_self _ _))
    have hmem : ∀ z ∈ mapDelete s.allocations p ++ (s.freeList ++ [b]),
        z ∈ blocksOf s := by
      intro z hz
      rcases List.mem_append.mp hz with h' | h'
      · rw [hdel] at h'
        rcases List.mem_append.mp h' with h'' | h''
        · exact List.mem_append_left _
            (by rw [hdecomp]; exact List.mem_append_left _ h'')
        · have hz₂ : z ∈ l₂ := List.mem_of_mem_filter h''
          exact List.mem_append_left _
            (by rw [hdecomp]
                exact List.mem_append_right _ (List.mem_cons_of_mem _ hz₂))
      · rcases List.mem_append.mp h' with h'' | h''
        · exact List.mem_append_right _ h''
        · rw [List.mem_singleton.mp h'']
          exact hbmem
    have hpair : (mapDelete s.allocations p ++ (s.freeList ++ [b])).Pairwise NoOverlap := by
      have hold : (l₁ ++ b :: (l₂ ++ s.freeList)).Pairwise NoOverlap := by
        have := hinv.disj
        rw [blocksOf, hdecomp] at this
        simpa [List.append_assoc] using this
      have hmid_sub : List.Sublist (l₁ ++ b :: (mapDelete l₂ p ++ s.freeList))
          (l₁ ++ b :: (l₂ ++ s.freeList)) := by
        apply List.Sublist.append_left
        apply List.Sublist.cons₂
        exact (List.filter_sublist l₂).append_right s.freeList
      have hmid := hold.sublist hmid_sub
      have h1 : List.Perm ([b] ++ (mapDelete l₂ p ++ s.freeList))
          ((mapDelete l₂ p ++ s.freeList) ++ [b]) := List.perm_append_comm
      have h2 := List.Perm.append_left l₁ h1
      have e1 : l₁ ++ ([b] ++ (mapDelete l₂ p ++ s.freeList)) =
          l₁ ++ b :: (mapDelete l₂ p ++ s.freeList) := by simp
      have e2 : l₁ ++ ((mapDelete l₂ p ++ s.freeList) ++ [b]) =
          (l₁ ++ mapDelete l₂ p) ++ (s.freeList ++ [b]) := by simp
      rw [e1, e2] at h2
      rw [hdel]
      exact (h2.pairwise_iff fun hab => noOverlap_symm hab).mp hmid
    refine ⟨hinv.heap_align, hinv.heap_lo, ?_, ?_, ?_, hpair⟩
    · intro z hz
      exact hinv.block_align z (hmem z hz)
    · intro z hz
      exact hinv.block_lo z (hmem z hz)
    · intro z hz
      exact hinv.block_hi z (hmem z hz)

lemma MgrInv_runOps (ops : List MgrOp) :
    ∀ s : MgrState, MgrInv s → MgrInv (runOps s ops) := by
  induction ops with
  | nil =>
    intro s h
    exact h
  | cons op rest ih =>
    intro s h
    cases op with
    | alloc len bpe =>
      show MgrInv (runOps s (.alloc len bpe :: rest))
      rw [runOps]
      cases hall : allocate s len bpe with
      | ok pr =>
        obtain ⟨X, s'⟩ := pr
        exact ih s' (MgrInv_allocate h hall).1
      | error e => exact ih s h
    | dealloc q =>
      show MgrInv (runOps s (.dealloc q :: rest))
      rw [runOps]
      exact ih _ (MgrInv_deallocate q h)

/-- **C2**: from the freshly initialised manager, after any sequence
of allocate/deallocate operations, a successful `allocate` returns an
offset that is 8-byte aligned and at or past the 65536-byte reserved
prefix, and the byte ranges of any two simultaneously live blocks
never overlap (both before and after the allocation). -/
theorem C2_alignment_and_isolation (ops : List MgrOp) (cfg : MemoryPoolConfig)
    (len bpe X : ℕ) (s' : MgrState)
    (h : allocate (runOps (initState cfg) ops) len bpe = .ok (X, s')) :
    X % 8 = 0 ∧ RESERVED_BYTES ≤ X ∧
    s'.allocations.Pairwise NoOverlap ∧
    (runOps (initState cfg) ops).allocations.Pairwise NoOverlap := by
  have hinv := MgrInv_runOps ops (initState cfg) (MgrInv_initState cfg)
  have hres := MgrInv_allocate hinv h
  exact ⟨hres.2.1, hres.2.2,
    hres.1.disj.sublist (List.sublist_append_left _ _),
    hinv.disj.sublist (List.sublist_append_left _ _)⟩

/-- Witness for C2: the first Float64 allocation on a fresh default
manager lands at the aligned offset 65536. -/
theorem C2_alignment_and_isolation_witness :
    65536 % 8 = 0 ∧ RESERVED_BYTES ≤ 65536 ∧
    c2AllocState.allocations.Pairwise NoOverlap ∧
    (runOps (initState DEFAULT_CONFIG) []).allocations.Pairwise NoOverlap :=
  C2_alignment_and_isolation [] DEFAULT_CONFIG 5 8 65536 c2AllocState rfl

lemma gawGo_const (ws : List PooledWorker) :
    ∀ (idx bi : ℕ) (bw : PooledWorker),
      (∀ w ∈ ws, bw.pendingTasks.length ≤ w.pendingTasks.length) →
      gawGo ws idx (some (bi, bw)) = some (bi, bw) := by
  induction ws with
  | nil =>
    intro idx bi bw _
    rfl
  | cons w rest ih =>
    intro idx bi bw h
    have hw := h w (List.mem_cons_self _ _)
    simp only [gawGo]
    rw [if_neg (by omega)]
    exact ih (idx + 1) bi bw fun y hy => h y (List.mem_cons_of_mem _ hy)

lemma gawGo_min_with_best (ws : List PooledWorker) :
    ∀ (idx r bi : ℕ) (bw b : PooledWorker), ws[r]? = some b →
      b.pendingTasks.length < bw.pendingTasks.length →
      (∀ (i : ℕ) (w : PooledWorker), ws[i]? = some w → i < r →
        b.pendingTasks.length < w.pendingTasks.length) →
      (∀ (i : ℕ) (w : PooledWorker), ws[i]? = some w →
        b.pendingTasks.length ≤ w.pendingTasks.length) →
      gawGo ws idx (some (bi, bw)) = some (idx + r, b) := by
  induction ws with
  | nil =>
    intro idx r bi bw b h
    simp at h
  | cons w rest ih =>
    intro idx r bi bw b hget hlt hbefore hall
    simp only [gawGo]
    cases r with
    | zero =>
      rw [List.getElem?_cons_zero] at hget
      obtain rfl := Option.some.inj hget
      rw [if_pos hlt]
      rw [gawGo_const rest (idx + 1) idx w fun y hy => ?_]
      · simp
      · obtain ⟨i, hi⟩ := List.mem_iff_getElem?.mp hy
        exact hall (i + 1) y (by rw [List.getElem?_cons_succ]; exact hi)
    | succ r' =>
      rw [List.getElem?_cons_succ] at hget
      have hblt_w : b.pendingTasks.length < w.pendingTasks.length :=
        hbefore 0 w List.getElem?_cons_zero (Nat.succ_pos _)
      have hbefore' : ∀ (i : ℕ) (y : PooledWorker), rest[i]? = some y → i < r' →
          b.pendingTasks.length < y.pendingTasks.length := fun i y hi hir =>
        hbefore (i + 1) y (by rw [List.getElem?_cons_succ]; exact hi) (by omega)
      have hall' : ∀ (i : ℕ) (y : PooledWorker), rest[i]? = some y →
          b.pendingTasks.length ≤ y.pendingTasks.length := fun i y hi =>
        hall (i + 1) y (by rw [List.getElem?_cons_succ]; exact hi)
      have harith : idx + 1 + r' = idx + (r' + 1) := by omega
      by_cases hwb : w.pendingTasks.length < bw.pendingTasks.length
      · rw [if_pos hwb]
        rw [ih (idx + 1) r' idx w b hget hblt_w hbefore' hall']
        rw [harith]
      · rw [if_neg hwb]
        rw [ih (idx + 1) r' bi bw b hget hlt hbefore' hall']
        rw [harith]

lemma gawGo_first_min (ws : List PooledWorker) :
    ∀ (idx r : ℕ) (b : PooledWorker), ws[r]? = some b →
      (∀ (i : ℕ) (w : PooledWorker), ws[i]? = some w → i < r →
        b.pendingTasks.length < w.pendingTasks.length) →
      (∀ (i : ℕ) (w : PooledWorker), ws[i]? = some w →
        b.pendingTasks.length ≤ w.pendingTasks.length) →
      gawGo ws idx none = some (idx + r, b) := by
  intro idx r b hget hbefore hall
  cases ws with
  | nil => simp at hget
  | cons w rest =>
    simp only [gawGo]
    cases r with
    | zero =>
      rw [List.getElem?_cons_zero] at hget
      obtain rfl := Option.some.inj hget
      rw [gawGo_const rest (idx + 1) idx w fun y hy => ?_]
      · simp
      · obtain ⟨i, hi⟩ := List.mem_iff_getElem?.mp hy
        exact hall (i + 1) y (by rw [List.getElem?_cons_succ]; exact hi)
    | succ r' =>
      rw [List.getElem?_cons_succ] at hget
      have hblt_w : b.pendingTasks.length < w.pendingTasks.length :=
        hbefore 0 w List.getElem?_cons_zero (Nat.succ_pos _)
      have hbefore' : ∀ (i : ℕ) (y : PooledWorker), rest[i]? = some y → i < r' →
          b.pendingTasks.length < y.pendingTasks.length := fun i y hi hir =>
        hbefore (i + 1) y (by rw [List.getElem?_cons_succ]; exact hi) (by omega)
      have hall' : ∀ (i : ℕ) (y : PooledWorker), rest[i]? = some y →
          b.pendingTasks.length ≤ y.pendingTasks.length := fun i y hi =>
        hall (i + 1) y (by rw [List.getElem?_cons_succ]; exact hi)
      rw [gawGo_min_with_best rest (idx + 1) r' idx w b hget hblt_w hbefore' hall']
      rw [show idx + 1 + r' = idx + (r' + 1) by omega]

lemma getAvailableWorker_spec (s : PoolState) (r : ℕ) (b : PooledWorker)
    (hget : s.workers[r]? = some b)
    (hbefore : ∀ (i : ℕ) (w : PooledWorker), s.workers[i]? = some w → i < r →
      b.pendingTasks.length < w.pendingTasks.length)
    (hall : ∀ (i : ℕ) (w : PooledWorker), s.workers[i]? = some w →
      b.pendingTasks.length ≤ w.pendingTasks.length) :
    getAvailableWorker s = if b.pendingTasks.length < 10 then some r else none := by
  rw [getAvailableWorker, gawGo_first_min s.workers 0 r b hget hbefore hall]
  simp

lemma submitAll_append (s : PoolState) (l₁ l₂ : List ℕ) :
    submitAll s (l₁ ++ l₂) = submitAll (submitAll s l₁) l₂ := by
  induction l₁ generalizing s with
  | nil => rfl
  | cons x rest ih =>
    rw [List.cons_append, submitAll, submitAll]
    exact ih _

lemma div_mod_succ_lt (W n : ℕ) (hW : 0 < W) (h : n % W + 1 < W) :
    (n + 1) / W = n / W ∧ (n + 1) % W = n % W + 1 := by
  have hdm := Nat.div_add_mod n W
  exact (Nat.div_mod_unique hW).mpr ⟨by omega, by omega⟩

lemma div_mod_succ_eq (W n : ℕ) (hW : 0 < W) (h : n % W + 1 = W) :
    (n + 1) / W = n / W + 1 ∧ (n + 1) % W = 0 := by
  have hdm := Nat.div_add_mod n W
  refine (Nat.div_mod_unique hW).mpr ⟨?_, hW⟩
  have : W * (n / W + 1) = W * (n / W) + W := by ring
  omega

lemma fillCount_self (W n : ℕ) : fillCount W n (n % W) = n / W := by
  simp [fillCount]

lemma fillCount_succ_self (W n : ℕ) (hW : 0 < W) :
    fillCount W (n + 1) (n % W) = n / W + 1 := by
  have hmod : n % W < W := Nat.mod_lt _ hW
  rcases Nat.lt_or_ge (n % W + 1) W with hlt | hge
  · obtain ⟨hd, hm⟩ := div_mod_succ_lt W n hW hlt
    simp [fillCount, hd, hm]
  · have heq : n % W + 1 = W := by omega
    obtain ⟨hd, hm⟩ := div_mod_succ_eq W n hW heq
    simp [fillCount, hd, hm]

lemma fillCount_succ_ne (W n i : ℕ) (hW : 0 < W) (hi : i < W) (hne : i ≠ n % W) :
    fillCount W (n + 1) i = fillCount W n i := by
  have hmod : n % W < W := Nat.mod_lt _ hW
  rcases Nat.lt_or_ge (n % W + 1) W with hlt | hge
  · obtain ⟨hd, hm⟩ := div_mod_succ_lt W n hW hlt
    rw [fillCount, fillCount, hd, hm]
    by_cases hlt' : i < n % W
    · rw [if_pos (by omega), if_pos hlt']
    · rw [if_neg (by omega), if_neg hlt']
  · have heq : n % W + 1 = W := by omega
    obtain ⟨hd, hm⟩ := div_mod_succ_eq W n hW heq
    rw [fillCount, fillCount, hd, hm]
    rw [if_neg (by omega), if_pos (by omega)]

lemma fillPending_length (W n i : ℕ) :
    (fillPending W n i).length = fillCount W n i := by
  simp [fillPending]

lemma fillPending_succ_self (W n : ℕ) (hW : 0 < W) :
    fillPending W (n + 1) (n % W) = fillPending W n (n % W) ++ [n] := by
  rw [fillPending, fillPending, fillCount_succ_self W n hW, fillCount_self]
  rw [List.range_succ, List.map_append]
  have hdm := Nat.div_add_mod n W
  have hcomm : W * (n / W) = n / W * W := Nat.mul_comm _ _
  simp only [List.map_cons, List.map_nil]
  congr 2
  omega

lemma fillState_workers_getElem (W n i : ℕ) (hi : i < W) :
    (fillState W n).workers[i]? =
      some ⟨fillPending W n i, 0, decide (0 < fillCount W n i)⟩ := by
  simp [fillState, List.getElem?_map, List.getElem?_range, hi]

lemma fillState_workers_none (W n i : ℕ) (hi : W ≤ i) :
    (fillState W n).workers[i]? = none := by
  have h : (List.range W).length ≤ i := by simpa using hi
  simp [fillState, List.getElem?_map, List.getElem?_eq_none h]

lemma sendToWorker_eq (s : PoolState) (widx id : ℕ) (w : PooledWorker)
    (hw : s.workers[widx]? = some w) :
    sendToWorker s widx id =
      { s with workers :=
                 s.workers.set widx
                   ({ w with pendingTasks := w.pendingTasks ++ [id],
                             busy := decide (0 < (w.pendingTasks ++ [id]).length) }) } := by
  unfold sendToWorker
  rw [hw]

lemma fill_gaw (W n : ℕ) (hW : 0 < W) (hn : n < 10 * W) :
    getAvailableWorker (fillState W n) = some (n % W) := by
  have hmod : n % W < W := Nat.mod_lt _ hW
  have hbefore : ∀ (i : ℕ) (w : PooledWorker), (fillState W n).workers[i]? = some w →
      i < n % W →
      (fillPending W n (n % W)).length < w.pendingTasks.length := by
    intro i w hi hir
    have hiW : i < W := by omega
    rw [fillState_workers_getElem W n i hiW] at hi
    obtain rfl := Option.some.inj hi.symm
    simp only [fillPending_length, fillCount]
    rw [if_pos hir, if_neg (show ¬ n % W < n % W by omega)]
    omega
  have hall : ∀ (i : ℕ) (w : PooledWorker), (fillState W n).workers[i]? = some w →
      (fillPending W n (n % W)).length ≤ w.pendingTasks.length := by
    intro i w hi
    by_cases hiW : i < W
    · rw [fillState_workers_getElem W n i hiW] at hi
      obtain rfl := Option.some.inj hi.symm
      simp only [fillPending_length, fillCount]
      rw [if_neg (show ¬ n % W < n % W by omega)]
      split <;> omega
    · rw [fillState_workers_none W n i (by omega)] at hi
      exact absurd hi (by simp)
  have hlen : (fillPending W n (n % W)).length < 10 := by
    rw [fillPending_length, fillCount_self]
    exact (Nat.div_lt_iff_lt_mul hW).mpr (by omega)
  rw [getAvailableWorker,
    gawGo_first_min (fillState W n).workers 0 (n % W)
      ⟨fillPending W n (n % W), 0, decide (0 < fillCount W n (n % W))⟩
      (fillState_workers_getElem W n (n % W) hmod) hbefore hall]
  dsimp only
  rw [if_pos hlen]
  simp

lemma fill_step_workers (W n : ℕ) (hW : 0 < W) :
    ((fillState W n).workers).set (n % W)
      ⟨fillPending W n (n % W) ++ [n], 0,
       decide (0 < (fillPending W n (n % W) ++ [n]).length)⟩ =
      (fillState W (n + 1)).workers := by
  have hmod : n % W < W := Nat.mod_lt _ hW
  have hwlen : ((fillState W n).workers).length = W := by simp [fillState]
  apply List.ext_getElem?
  intro j
  by_cases hjW : j < W
  · by_cases hjr : j = n % W
    · rw [hjr, List.getElem?_set_self (by simp only [List.length_set, hwlen]; omega),
        fillState_workers_getElem W (n + 1) (n % W) hmod]
      refine congrArg some ?_
      simp only [PooledWorker.mk.injEq]
      refine ⟨(fillPending_succ_self W n hW).symm, trivial, ?_⟩
      simp only [List.length_append, fillPending_length, List.length_singleton,
        fillCount_succ_self W n hW, fillCount_self]
    · rw [List.getElem?_set_ne (fun h => hjr h.symm)]
      rw [fillState_workers_getElem W n j hjW, fillState_workers_getElem W (n + 1) j hjW]
      have hc := fillCount_succ_ne W n j hW hjW hjr
      rw [fillPending, fillPending, hc]
  · rw [List.getElem?_eq_none (by simp only [List.length_set, hwlen]; omega),
      fillState_workers_none W (n + 1) j (by omega)]

lemma fill_step (W n : ℕ) (hW : 0 < W) (hn : n < 10 * W) :
    compute (fillState W n) n = (fillState W (n + 1), true) := by
  have hmod : n % W < W := Nat.mod_lt _ hW
  rw [compute, fill_gaw W n hW hn]
  dsimp only
  rw [sendToWorker_eq (fillState W n) (n % W) n _ (fillState_workers_getElem W n (n % W) hmod)]
  refine congrArg (fun x => (x, true)) ?_
  have hworkers := fill_step_workers W n hW
  exact congrArg (fun ws => { fillState W n with workers := ws }) hworkers

lemma submit_fill (W : ℕ) (hW : 0 < W) :
    ∀ n, n ≤ 10 * W → submitAll (mkIdlePool W) (List.range n) = fillState W n := by
  intro n
  induction n with
  | zero =>
    intro _
    show mkIdlePool W = fillState W 0
    have hworkers : List.replicate W (⟨[], 0, false⟩ : PooledWorker) =
        (fillState W 0).workers := by
      apply List.ext_getElem?
      intro j
      by_cases hj : j < W
      · rw [fillState_workers_getElem W 0 j hj]
        simp [List.getElem?_replicate, hj, fillCount, fillPending]
      · rw [fillState_workers_none W 0 j (by omega)]
        rw [List.getElem?_eq_none (by simpa using hj)]
    exact congrArg (fun ws => (⟨ws, [], 0, 0⟩ : PoolState)) hworkers
  | succ n ih =>
    intro hn
    rw [List.range_succ, submitAll_append, ih (by omega)]
    show (compute (fillState W n) n).1 = fillState W (n + 1)
    rw [fill_step W n hW (by omega)]

lemma pool_fill_full (W : ℕ) (hW : 0 < W) (i : ℕ) :
    fillCount W (10 * W) i = 10 := by
  have hd : (10 * W) / W = 10 ∧ (10 * W) % W = 0 :=
    (Nat.div_mod_unique hW).mpr ⟨by ring, hW⟩
  rw [fillCount, hd.1, hd.2]
  simp

lemma fillPending_mem_lt (W n i id : ℕ) (hi : i < W)
    (hid : id ∈ fillPending W n i) : id < fillCount W n i * W := by
  simp only [fillPending, List.mem_map, List.mem_range] at hid
  obtain ⟨t, ht, rfl⟩ := hid
  have h1 : (t + 1) * W ≤ fillCount W n i * W := Nat.mul_le_mul_right W (by omega)
  have h2 : (t + 1) * W = t * W + W := by ring
  omega

lemma fill_full_gaw (W : ℕ) (hW : 0 < W) :
    getAvailableWorker (fillState W (10 * W)) = none := by
  have h0 := fillState_workers_getElem W (10 * W) 0 hW
  have hall : ∀ (i : ℕ) (w : PooledWorker),
      (fillState W (10 * W)).workers[i]? = some w →
      (fillPending W (10 * W) 0).length ≤ w.pendingTasks.length := by
    intro i w hi
    by_cases hiW : i < W
    · rw [fillState_workers_getElem W (10 * W) i hiW] at hi
      obtain rfl := Option.some.inj hi.symm
      simp only [fillPending_length, pool_fill_full W hW]
      omega
    · rw [fillState_workers_none W (10 * W) i (by omega)] at hi
      exact absurd hi (by simp)
  rw [getAvailableWorker,
    gawGo_first_min (fillState W (10 * W)).workers 0 0
      ⟨fillPending W (10 * W) 0, 0, decide (0 < fillCount W (10 * W) 0)⟩
      h0 (by omega) hall]
  dsimp only
  rw [if_neg (by simp only [fillPending_length, pool_fill_full W hW]; omega)]

lemma submit_overflow (W : ℕ) (hW : 0 < W) :
    submitAll (mkIdlePool W) (List.range (10 * W + 1)) = overflowState W := by
  rw [List.range_succ, submitAll_append, submit_fill W hW (10 * W) le_rfl]
  show (compute (fillState W (10 * W)) (10 * W)).1 = overflowState W
  rw [compute, fill_full_gaw W hW]
  dsimp only
  rfl

lemma handleWorkerMessage_eq (s : PoolState) (widx id : ℕ) (et : Bool)
    (msg : String) (w : PooledWorker) (hw : s.workers[widx]? = some w)
    (hid : id ∈ w.pendingTasks) :
    handleWorkerMessage s widx id et msg =
      (processQueue
        { s with workers :=
                   s.workers.set widx
                     ({ w with pendingTasks := w.pendingTasks.erase id,
                               taskCount := w.taskCount + 1,
                               busy := decide (0 < (w.pendingTasks.erase id).length) }),
                 totalTasksCompleted := s.totalTasksCompleted + 1 },
       some (if et then .rejected id msg else .resolved id)) := by
  unfold handleWorkerMessage
  rw [hw]
  dsimp only
  rw [if_pos hid]

lemma handleWorkerMessage_no_worker (s : PoolState) (widx id : ℕ) (et : Bool)
    (msg : String) (hw : s.workers[widx]? = none) :
    handleWorkerMessage s widx id et msg = (s, none) := by
  unfold handleWorkerMessage
  rw [hw]

lemma processQueue_one (s : PoolState) (qid widx : ℕ)
    (hq : s.taskQueue = [qid]) (hgaw : getAvailableWorker s = some widx) :
    processQueue s =
      sendToWorker { s with taskQueue := [], queuedTasks := 0 } widx qid := by
  rw [processQueue, hq]
  show processQueueGo 1 s = _
  unfold processQueueGo
  rw [hq, hgaw]
  dsimp only
  rfl

lemma handleWorkerMessage_parts (s : PoolState) (widx id : ℕ) (w : PooledWorker)
    (hw : s.workers[widx]? = some w) (hid : id ∈ w.pendingTasks) :
    ∃ s₁ : PoolState,
      handleWorkerMessage s widx id false "" = (processQueue s₁, some (.resolved id)) ∧
      s₁.taskQueue = s.taskQueue ∧
      s₁.workers = s.workers.set widx
        ({ w with pendingTasks := w.pendingTasks.erase id,
                  taskCount := w.taskCount + 1,
                  busy := decide (0 < (w.pendingTasks.erase id).length) }) :=
  ⟨_, handleWorkerMessage_eq s widx id false "" w hw hid, rfl, rfl⟩

lemma handleWorkerMessage_resolved (s : PoolState) (widx id : ℕ) (w : PooledWorker)
    (hw : s.workers[widx]? = some w) (hid : id ∈ w.pendingTasks) :
    (handleWorkerMessage s widx id false "").2 = some (.resolved id) := by
  obtain ⟨s₁, hmsg, -, -⟩ := handleWorkerMessage_parts s widx id w hw hid
  rw [hmsg]

lemma overflow_release (W widx id : ℕ) (hW : 0 < W) (w : PooledWorker)
    (hw : (overflowState W).workers[widx]? = some w) (hid : id ∈ w.pendingTasks) :
    (handleWorkerMessage (overflowState W) widx id false "").2 = some (.resolved id) ∧
    (handleWorkerMessage (overflowState W) widx id false "").1.taskQueue = [] ∧
    ∃ w₂, (handleWorkerMessage (overflowState W) widx id false "").1.workers[widx]?
        = some w₂ ∧
      10 * W ∈ w₂.pendingTasks ∧
      (handleWorkerMessage (handleWorkerMessage (overflowState W) widx id false "").1
        widx (10 * W) false "").2 = some (.resolved (10 * W)) := by
  have hOlen : (overflowState W).workers.length = W := by
    simp [overflowState, fillState]
  have hwidx : widx < W := by
    by_contra hcon
    have hnone : (overflowState W).workers[widx]? = none :=
      fillState_workers_none W (10 * W) widx (by omega)
    rw [hnone] at hw
    exact absurd hw (by simp)
  have hwval : w = ⟨fillPending W (10 * W) widx, 0,
      decide (0 < fillCount W (10 * W) widx)⟩ := by
    have h : (overflowState W).workers[widx]? =
        some ⟨fillPending W (10 * W) widx, 0, decide (0 < fillCount W (10 * W) widx)⟩ :=
      fillState_workers_getElem W (10 * W) widx hwidx
    rw [h] at hw
    exact (Option.some.inj hw).symm
  have hplen : w.pendingTasks.length = 10 := by
    rw [hwval]
    simp only [fillPending_length, pool_fill_full W hW]
  have herase : (w.pendingTasks.erase id).length = 9 := by
    rw [List.length_erase_of_mem hid, hplen]
  obtain ⟨s₁, hmsg, hq₁, hws₁⟩ :=
    handleWorkerMessage_parts (overflowState W) widx id w hw hid
  have hget₁ : s₁.workers[widx]? =
      some ({ w with pendingTasks := w.pendingTasks.erase id,
                     taskCount := w.taskCount + 1,
                     busy := decide (0 < (w.pendingTasks.erase id).length) }) := by
    rw [hws₁]
    exact List.getElem?_set_self (by simp only [List.length_set, hOlen]; omega)
  have hOget : ∀ i : ℕ, i < W → (overflowState W).workers[i]? =
      some ⟨fillPending W (10 * W) i, 0, decide (0 < fillCount W (10 * W) i)⟩ :=
    fun i hi => fillState_workers_getElem W (10 * W) i hi
  have hOnone : ∀ i : ℕ, W ≤ i → (overflowState W).workers[i]? = none :=
    fun i hi => fillState_workers_none W (10 * W) i hi
  have hbefore : ∀ (i : ℕ) (y : PooledWorker), s₁.workers[i]? = some y → i < widx →
      (w.pendingTasks.erase id).length < y.pendingTasks.length := by
    intro i y hi hir
    rw [hws₁, List.getElem?_set_ne (by omega), hOget i (by omega)] at hi
    obtain rfl := Option.some.inj hi.symm
    simp only [fillPending_length, pool_fill_full W hW, herase]
    omega
  have hall : ∀ (i : ℕ) (y : PooledWorker), s₁.workers[i]? = some y →
      (w.pendingTasks.erase id).length ≤ y.pendingTasks.length := by
    intro i y hi
    by_cases hiw : i = widx
    · subst hiw
      rw [hget₁] at hi
      obtain rfl := Option.some.inj hi.symm
      exact le_rfl
    · by_cases hiW : i < W
      · rw [hws₁, List.getElem?_set_ne (fun h => hiw h.symm), hOget i hiW] at hi
        obtain rfl := Option.some.inj hi.symm
        simp only [fillPending_length, pool_fill_full W hW, herase]
        omega
      · rw [hws₁, List.getElem?_set_ne (fun h => hiw h.symm),
          hOnone i (by omega)] at hi
        exact absurd hi (by simp)
  have hgaw : getAvailableWorker s₁ = some widx := by
    rw [getAvailableWorker_spec s₁ widx _ hget₁ hbefore hall]
    rw [if_pos (by simp only [herase]; omega)]
  have hq : s₁.taskQueue = [10 * W] := by
    rw [hq₁]
    rfl
  have hpq := processQueue_one s₁ (10 * W) widx hq hgaw
  have hget₂ : ({ s₁ with taskQueue := ([] : List ℕ), queuedTasks := 0 }
        : PoolState).workers[widx]? =
      some ({ w with pendingTasks := w.pendingTasks.erase id,
                     taskCount := w.taskCount + 1,
                     busy := decide (0 < (w.pendingTasks.erase id).length) }) := hget₁
  have hsend := sendToWorker_eq _ widx (10 * W) _ hget₂
  rw [hmsg]
  dsimp only
  rw [hpq, hsend]
  dsimp only
  have hlen₂ : (s₁.workers.set widx
      ({ w with pendingTasks := w.pendingTasks.erase id,
                taskCount := w.taskCount + 1,
                busy := decide (0 < (w.pendingTasks.erase id).length) })).length = W := by
    rw [List.length_set, hws₁, List.length_set, hOlen]
  have hget₃ : (s₁.workers.set widx
      ({ w with pendingTasks := w.pendingTasks.erase id ++ [10 * W],
                taskCount := w.taskCount + 1,
                busy := decide (0 < (w.pendingTasks.erase id ++ [10 * W]).length) }))[widx]?
      = some ({ w with pendingTasks := w.pendingTasks.erase id ++ [10 * W],
                       taskCount := w.taskCount + 1,
                       busy := decide
                         (0 < (w.pendingTasks.erase id ++ [10 * W]).length) }) :=
    List.getElem?_set_self (by
      simp only [List.length_set, hws₁, hOlen]
      omega)
  refine ⟨rfl, rfl, _, hget₃, List.mem_append_right _ (List.mem_singleton.mpr rfl), ?_⟩
  exact handleWorkerMessage_resolved _ widx (10 * W) _ hget₃
    (List.mem_append_right _ (List.mem_singleton.mpr rfl))

/-- C8 (counterexample): submitting W + 1 = 2 requests to a fresh pool of
W = 1 ready workers queues nothing — both requests are dispatched to the
single worker, because a worker only stops being "available" at 10 pending
tasks, so the claim's "exactly one request placed on the overflow queue"
fails. -/
theorem C8_counterexample :
    (submitAll (mkIdlePool 1) (List.range 2)).taskQueue = [] ∧
    (submitAll (mkIdlePool 1) (List.range 2)).workers = [⟨[0, 1], 0, true⟩] := by
  decide

/-- C8 (amended): requests overflow to the queue only once every worker is
at the 10-pending cap.  Submitting 10·W + 1 requests to a fresh pool of W
ready workers leaves exactly one request (id 10·W) on the overflow queue,
dispatched to no worker; when any worker then completes one of its pending
requests, that request's promise is resolved under its own id, the queue
empties, the queued request becomes pending on the freed worker, and its
eventual response is resolved under its own id 10·W. -/
theorem C8_overflow_queue (W : ℕ) (hW : 0 < W) :
    submitAll (mkIdlePool W) (List.range (10 * W + 1)) = overflowState W ∧
    (overflowState W).taskQueue = [10 * W] ∧
    (∀ i : ℕ, i < W → ∃ wi : PooledWorker,
      (overflowState W).workers[i]? = some wi ∧
      wi.pendingTasks.length = 10 ∧ 10 * W ∉ wi.pendingTasks) ∧
    (∀ (widx id : ℕ) (w : PooledWorker),
      (overflowState W).workers[widx]? = some w → id ∈ w.pendingTasks →
      (handleWorkerMessage (overflowState W) widx id false "").2
          = some (.resolved id) ∧
      (handleWorkerMessage (overflowState W) widx id false "").1.taskQueue = [] ∧
      ∃ w₂, (handleWorkerMessage (overflowState W) widx id false "").1.workers[widx]?
          = some w₂ ∧
        10 * W ∈ w₂.pendingTasks ∧
        (handleWorkerMessage (handleWorkerMessage (overflowState W) widx id false "").1
          widx (10 * W) false "").2 = some (.resolved (10 * W))) := by
  refine ⟨submit_overflow W hW, rfl, ?_, ?_⟩
  · intro i hi
    refine ⟨⟨fillPending W (10 * W) i, 0, decide (0 < fillCount W (10 * W) i)⟩,
      fillState_workers_getElem W (10 * W) i hi, ?_, ?_⟩
    · simp only [fillPending_length, pool_fill_full W hW]
    · intro hmem
      have h := fillPending_mem_lt W (10 * W) i (10 * W) hi hmem
      rw [pool_fill_full W hW] at h
      omega
  · intro widx id w hw hid
    exact overflow_release W widx id hW w hw hid

/-- C8 (witness): the amended overflow property evaluated at a pool of one
worker, 11 submissions. -/
theorem C8_overflow_queue_witness :
    submitAll (mkIdlePool 1) (List.range (10 * 1 + 1)) = overflowState 1 ∧
    (overflowState 1).taskQueue = [10 * 1] ∧
    (∀ i : ℕ, i < 1 → ∃ wi : PooledWorker,
      (overflowState 1).workers[i]? = some wi ∧
      wi.pendingTasks.length = 10 ∧ 10 * 1 ∉ wi.pendingTasks) ∧
    (∀ (widx id : ℕ) (w : PooledWorker),
      (overflowState 1).workers[widx]? = some w → id ∈ w.pendingTasks →
      (handleWorkerMessage (overflowState 1) widx id false "").2
          = some (.resolved id) ∧
      (handleWorkerMessage (overflowState 1) widx id false "").1.taskQueue = [] ∧
      ∃ w₂, (handleWorkerMessage (overflowState 1) widx id false "").1.workers[widx]?
          = some w₂ ∧
        10 * 1 ∈ w₂.pendingTasks ∧
        (handleWorkerMessage (handleWorkerMessage (overflowState 1) widx id false "").1
          widx (10 * 1) false "").2 = some (.resolved (10 * 1))) :=
  C8_overflow_queue 1 (by decide)

/-- C9 (counterexample): with one worker holding pending request 1 and
request 2 sitting on the overflow queue, terminate() settles only request
1; the queued request 2 is discarded without ever being rejected or
resolved, so "every outstanding future is rejected with PoolTerminated"
fails for overflow-queue entries. -/
theorem C9_counterexample :
    (terminate c9Pool).2 = [.rejected 1 "Worker pool terminated"] ∧
    2 ∈ c9Pool.taskQueue ∧
    Delivery.rejected 2 "Worker pool terminated" ∉ (terminate c9Pool).2 ∧
    Delivery.resolved 2 ∉ (terminate c9Pool).2 := by
  decide

/-- C9 (amended): terminate() rejects exactly the requests pending on
workers, each with the error 'Worker pool terminated', then tears the pool
down: no workers remain, the overflow queue is cleared without its
requests being settled, and afterwards no result/error message from any
worker is processed — every such message leaves the state unchanged and
settles nothing. -/
theorem C9_terminate (s : PoolState) :
    (∀ (widx id : ℕ) (w : PooledWorker), s.workers[widx]? = some w →
      id ∈ w.pendingTasks →
      Delivery.rejected id "Worker pool terminated" ∈ (terminate s).2) ∧
    (∀ d ∈ (terminate s).2, ∃ w ∈ s.workers, ∃ id ∈ w.pendingTasks,
      d = Delivery.rejected id "Worker pool terminated") ∧
    (terminate s).1.workers = [] ∧
    (terminate s).1.taskQueue = [] ∧
    (∀ (widx id : ℕ) (isErr : Bool) (msg : String),
      handleWorkerMessage (terminate s).1 widx id isErr msg
        = ((terminate s).1, none)) := by
  refine ⟨?_, ?_, rfl, rfl, ?_⟩
  · intro widx id w hw hid
    have hwmem : w ∈ s.workers := by
      obtain ⟨hlt, rfl⟩ := List.getElem?_eq_some.mp hw
      exact List.getElem_mem hlt
    exact List.mem_flatMap.mpr ⟨w, hwmem, List.mem_map.mpr ⟨id, hid, rfl⟩⟩
  · intro d hd
    obtain ⟨w, hwmem, hd₁⟩ := List.mem_flatMap.mp hd
    obtain ⟨id, hid, rfl⟩ := List.mem_map.mp hd₁
    exact ⟨w, hwmem, id, hid, rfl⟩
  · intro widx id isErr msg
    exact handleWorkerMessage_no_worker _ widx id isErr msg (by simp [terminate])

end NgWasm
